import Mathlib

/-!
Verification of the CryptoMiniSat orchestrator (Solver.cpp) against its
natural-language specification.  The C++ source is shallowly embedded:
machine integers become Nat/Int, doubles become exact rationals, vectors
become lists, and member functions become functions on an explicit
`SolverState`.  External collaborators (PropEngine, OccSimplifier,
CompHandler, Searcher) that are not part of the analysed translation unit
are passed in as function parameters, so the theorems hold for every
behaviour of those collaborators.
-/

set_option maxHeartbeats 1000000

namespace CMSat

/-- Ternary truth value, translated from the lbool type used by the solver. -/
inductive Lbool where
  | ltrue
  | lfalse
  | lundef
deriving DecidableEq, Repr

/-- Negation on ternary truth values. -/
def Lbool.neg : Lbool → Lbool
  | .lundef => .lundef
  | .ltrue => .lfalse
  | .lfalse => .ltrue

/-- A literal is encoded as 2*var + sign, exactly as in the Lit class of the
source (`2·v` positive, `2·v+1` negative, bit-XOR with 1 negates). -/
abbrev Lit := Nat

/-- Variable of a literal (Lit::var). -/
def litVar (l : Lit) : Nat := l / 2

/-- Sign of a literal (Lit::sign); true means negated. -/
def litSign (l : Lit) : Bool := l % 2 = 1

/-- Negation of a literal (operator~ on Lit): bit-XOR with 1. -/
def litNeg (l : Lit) : Lit := l ^^^ 1

/-- Value of a variable under an assignment vector (Solver::value on a var). -/
def valueVar (assigns : List Lbool) (v : Nat) : Lbool :=
  assigns.getD v ( .lundef)

/-- Value of a literal under an assignment vector (Solver::value on a Lit). -/
def valueLit (assigns : List Lbool) (l : Lit) : Lbool :=
  if litSign l then (valueVar assigns (litVar l)).neg else valueVar assigns (litVar l)

/-- Retention tier for a redundant long clause, translated from the inline
logic of Solver::addClause: start at tier 2, move to tier 0 when
`glue <= glue_put_lev0_if_below_or_eq`, else to tier 1 when
`glue <= glue_put_lev1_if_below_or_eq` and that threshold is nonzero. -/
def whichRedArray (glue t0 t1 : Nat) : Nat :=
  if glue ≤ t0 then 0
  else if glue ≤ t1 ∧ t1 ≠ 0 then 1
  else 2

/-- Retention tier exactly as the specification words it (claim C5):
`glue ≤ T0 → tier 0` else `glue ≤ T1 → tier 1` else tier 2.  This definition
follows the spec text and is compared against `whichRedArray`, which follows
the source. -/
def specRetentionTier (glue t0 t1 : Nat) : Nat :=
  if glue ≤ t0 then 0
  else if glue ≤ t1 then 1
  else 2

/-- Removal tag of a variable (the Removed enum). -/
inductive RemovedT where
  | rnone
  | elimed
  | replaced
  | decomposed
deriving DecidableEq, Repr

/-- A long clause: literals plus the header fields the claims need
(redundant flag, glue, retention tier which_red_array). -/
structure ClauseC where
  lits : List Lit
  red : Bool
  glue : Nat
  whichRed : Nat
deriving DecidableEq, Repr

/-- The configuration fields of SolverConf that the analysed code reads.
C++ doubles are modelled as exact rationals. -/
structure SolverConf where
  perform_occur_based_simp : Bool
  glue_put_lev0_if_below_or_eq : Nat
  glue_put_lev1_if_below_or_eq : Nat
  maxConfl : Int
  maxTime : ℚ
  num_conflicts_of_search : Int
  num_conflicts_of_search_inc : ℚ
  num_conflicts_of_search_inc_max : ℚ
  never_stop_search : Bool
  do_simplify_problem : Bool
  compHandlerPresent : Bool
  shortTermHistorySize : Int
  preprocess : Nat
  simplify_at_startup : Bool
  simplify_at_every_startup : Bool
  burst_search_len : Nat
  global_timeout_multiplier : ℚ
  orig_global_timeout_multiplier : ℚ
deriving DecidableEq, Repr

/-- The orchestrator state: the fields of Solver/CNF/PropEngine that the
analysed member functions read or write.  Vectors become lists; the clause
arena becomes the clause lists themselves; the two watch lists of a binary
clause become one entry of `binClauses`.  The fields ending in `Log` are
ghost instrumentation recording emitted DRAT lines, binary-clause gossip
signals, XOR cuts and XOR expansion clauses, mirroring the corresponding
calls in the source. -/
structure SolverState where
  ok : Bool
  nVars : Nat
  nVarsOuter : Nat
  nVarsOutside : Nat
  assigns : List Lbool
  trail : List Lit
  longIrredCls : List ClauseC
  longRedCls : List (List ClauseC)
  binClauses : List (Lit × Lit × Bool)
  irredBins : Nat
  redBins : Nat
  numNewBinsSinceSCC : Nat
  irredLits : Nat
  redLits : Nat
  zeroLevAssignsByCNF : Nat
  undef_must_set_vars : List Bool
  interToOuter : List Nat
  outerToInter : List Nat
  outsideToOuterMap : List Nat
  replaceMapOuter : List Lit
  removedTag : List RemovedT
  anythingHasBeenBlocked : Bool
  dratEnabled : Bool
  dratLog : List (Bool × List Lit)
  binSignalLog : List (List Lit)
  xorclauses : List (List Nat × Bool)
  xorCutsLog : List (List Lit)
  xorGenLog : List (List Lit)
  sumConflicts : Nat
  cpuTimeNow : ℚ
  mustInterrupt : Bool
  solveCalls : Nat
  numSimplify : Nat
  conflict : List Lit
  conf : SolverConf
deriving DecidableEq, Repr

/-- Solver::map_inter_to_outer. -/
def mapInterToOuter (S : SolverState) (v : Nat) : Nat := S.interToOuter.getD v v

/-- Solver::map_outer_to_inter on a variable. -/
def mapOuterToInter (S : SolverState) (v : Nat) : Nat := S.outerToInter.getD v v

/-- Solver::map_outer_to_inter on a literal. -/
def mapOuterToInterLit (S : SolverState) (l : Lit) : Lit :=
  2 * mapOuterToInter S (litVar l) + (if litSign l then 1 else 0)

/-- The external collaborators every pipeline function may call: level-0
propagation (PropEngine), un-elimination (OccSimplifier), component clause
re-addition (CompHandler) and fresh outer variable allocation
(Searcher::new_var).  None of them is part of the analysed translation unit,
so they are taken as parameters and the theorems hold for every behaviour of
them. -/
structure Ext where
  propagate : SolverState → SolverState × Bool
  uneliminate : SolverState → Nat → Bool × SolverState
  readdRemovedClauses : SolverState → SolverState
  newVarOuter : SolverState → Nat → SolverState

/-- Sorting of a literal vector by encoding (std::sort in the source; on Nat
encodings the sorted permutation is unique, so insertion sort gives the same
list). -/
def sortLits (ps : List Lit) : List Lit := List.insertionSort (fun a b => a ≤ b) ps

/-- Outcome of the cleaning scan of Solver::sort_and_clean_clause. -/
inductive CleanResult where
  | satisf
  | taut (sharedVar : Nat)
  | keep (lits : List Lit)
deriving DecidableEq, Repr

/-- One-pass scan of Solver::sort_and_clean_clause over the sorted literal
list, carrying the previously retained literal `p` (lit_Undef modelled as
none): a true literal discards the clause as satisfied; a literal
complementary to `p` discards it as a tautology, recording p's variable; a
duplicate of `p` or a false literal is skipped; anything else is retained. -/
def cleanScan (assigns : List Lbool) : List Lit → Option Lit → CleanResult
  | [], _ => .keep []
  | l :: ls, p =>
    if valueLit assigns l = .ltrue then .satisf
    else if some (litNeg l) = p then .taut (litVar (litNeg l))
    else if valueLit assigns l ≠ .lfalse ∧ some l ≠ p then
      match cleanScan assigns ls (some l) with
      | .keep ks => .keep (l :: ks)
      | r => r
    else cleanScan assigns ls p

/-- Marking of the shared variable of a discarded tautology in
undef_must_set_vars: the variable is mapped inter-to-outer, the vector is
resized if needed, and the entry is set true (Solver::sort_and_clean_clause,
non-redundant tautology branch). -/
def markUndefMustSet (S : SolverState) (v : Nat) : List Bool :=
  let var := mapInterToOuter S v
  let resized := if S.undef_must_set_vars.length < var + 1
    then S.undef_must_set_vars ++
      List.replicate (var + 1 - S.undef_must_set_vars.length) false
    else S.undef_must_set_vars
  resized.set var true

/-- Solver::sort_and_clean_clause: sort, run the cleaning scan, and on the
tautology branch update undef_must_set_vars exactly when the clause is not
redundant.  Returns the outcome and the updated vector. -/
def sortAndCleanClause (S : SolverState) (ps : List Lit) (red : Bool) :
    CleanResult × List Bool :=
  match cleanScan S.assigns (sortLits ps) none with
  | .taut v => (.taut v, if red then S.undef_must_set_vars else markUndefMustSet S v)
  | r => (r, S.undef_must_set_vars)

/-- Modelled from the spec: PropEngine::enqueue at decision level 0 (spec
section 4.2) appends the literal to the trail and records its value; the
enqueue implementation lives outside the analysed translation unit. -/
def enqueueL0 (S : SolverState) (l : Lit) : SolverState :=
  {S with assigns := S.assigns.set (litVar l) (if litSign l then .lfalse else .ltrue),
          trail := S.trail ++ [l]}

/-- Solver::attach_bin_clause: update the binary counters and attach the pair
(the PropEngine watch-list append is modelled as one `binClauses` entry). -/
def attachBinClause (S : SolverState) (l1 l2 : Lit) (red : Bool) : SolverState :=
  {S with binClauses := S.binClauses ++ [(l1, l2, red)],
          irredBins := if red then S.irredBins else S.irredBins + 1,
          redBins := if red then S.redBins + 1 else S.redBins,
          numNewBinsSinceSCC := S.numNewBinsSinceSCC + 1}

/-- Solver::attachClause and its non-attached else-branch both update the
literal counters by the clause size; the PropEngine watch structure for long
clauses is not represented in this model. -/
def attachLongCounters (S : SolverState) (c : ClauseC) : SolverState :=
  if c.red then {S with redLits := S.redLits + c.lits.length}
  else {S with irredLits := S.irredLits + c.lits.length}

/-- Modelled from the spec: the default glue of a freshly constructed
ClauseStats (the ClauseStats type lives outside the analysed translation
unit).  No claim depends on its concrete value; it is fixed at 2 here. -/
def defaultGlue : Nat := 2

/-- Solver::add_clause_int with drat_first = lit_Undef (the only form the
analysed call sites use): clean the clause; an empty result refutes the
solver; a unit is enqueued and propagated; a binary is attached; a longer
clause is allocated and attached.  Returns the allocated clause (if any),
the final literal list (the finalLits out-parameter), and the new state. -/
def addClauseInt (ext : Ext) (S : SolverState) (lits : List Lit) (red : Bool)
    (glue : Nat) (attachLong : Bool) (addDrat : Bool) :
    Option ClauseC × List Lit × SolverState :=
  match sortAndCleanClause S lits red with
  | (.keep ps, u) =>
    let S1 := {S with undef_must_set_vars := u}
    let S2 := if addDrat then
        {S1 with dratLog := S1.dratLog ++ [(false, ps)],
                 binSignalLog := if ps.length = 2 then S1.binSignalLog ++ [ps]
                   else S1.binSignalLog}
      else S1
    match ps with
    | [] => (none, [], {S2 with ok := false})
    | [l] =>
      let S3 := enqueueL0 S2 l
      let S4 := if attachLong then
          let pr := ext.propagate S3
          {pr.1 with ok := pr.2}
        else S3
      (none, [l], S4)
    | [l1, l2] => (none, [l1, l2], attachBinClause S2 l1 l2 red)
    | a :: b :: c :: rest =>
      let cl : ClauseC := {lits := a :: b :: c :: rest, red := red, glue := glue, whichRed := 0}
      (some cl, a :: b :: c :: rest, attachLongCounters S2 cl)
  | (_, u) => (none, [], {S with undef_must_set_vars := u})

/-- Errors surfacing at the clause-ingestion boundary: the TooLongClause
exception and the fatal std::exit paths. -/
inductive AddErr where
  | tooLongClause
  | tooLargeVarOuter
  | tooLargeVarOutside
  | blockedClauses
deriving DecidableEq, Repr

/-- Result of Solver::addClauseHelper: a raised error, a false return, or the
rewritten literal list with the new state. -/
inductive HelperRes where
  | herr (e : AddErr) (S : SolverState)
  | hfalse (S : SolverState)
  | hok (ps : List Lit) (S : SolverState)
deriving DecidableEq, Repr

/-- The per-literal loop of Solver::addClauseHelper: the fatal check that the
outer variable is declared, the equivalence-replacement substitution, and the
allocation of a fresh inter variable when the outer variable maps beyond
nVars.  `Except.error` carries the state at the fatal exit. -/
def helperLoop (ext : Ext) : List Lit → List Lit → SolverState →
    Except SolverState (List Lit × SolverState)
  | [], done, S => .ok (done, S)
  | l :: ls, done, S =>
    if S.nVarsOuter ≤ litVar l then .error S
    else
      let lit := S.replaceMapOuter.getD l l
      let S' := if S.nVars ≤ litVar (mapOuterToInterLit S lit)
        then ext.newVarOuter S (litVar lit) else S
      helperLoop ext ls (done ++ [lit]) S'

/-- The un-elimination loop of Solver::addClauseHelper: a failing
OccSimplifier::uneliminate makes the helper return false immediately. -/
def unelimLoop (ext : Ext) : List Lit → SolverState → Bool × SolverState
  | [], S => (true, S)
  | l :: ls, S =>
    if S.conf.perform_occur_based_simp ∧
        S.removedTag.getD (litVar l) .rnone = .elimed then
      let r := ext.uneliminate S (litVar l)
      if r.1 then unelimLoop ext ls r.2 else (false, r.2)
    else unelimLoop ext ls S

/-- The tail of Solver::addClauseHelper after the replacement loop: renumber
the literals outer-to-inter, re-add removed component clauses when a literal
is decomposed, and run the un-elimination loop. -/
def addClauseHelperRest (ext : Ext) (ps1 : List Lit) (S1 : SolverState) : HelperRes :=
  match unelimLoop ext (ps1.map (mapOuterToInterLit S1))
      (if S1.conf.compHandlerPresent ∧
          (ps1.map (mapOuterToInterLit S1)).any
            (fun l => S1.removedTag.getD (litVar l) .rnone = .decomposed)
        then ext.readdRemovedClauses S1 else S1) with
  | (false, S3) => .hfalse S3
  | (true, S3) => .hok (ps1.map (mapOuterToInterLit S1)) S3

/-- Solver::addClauseHelper: return false at once when the solver is already
refuted; raise TooLongClause when the clause has more than 2^28 literals;
then substitute replacements, allocate missing variables, renumber the
literals outer-to-inter, re-add decomposed components, and un-eliminate. -/
def addClauseHelper (ext : Ext) (S0 : SolverState) (ps0 : List Lit) : HelperRes :=
  if S0.ok = false then .hfalse S0
  else if 2 ^ 28 < ps0.length then .herr .tooLongClause S0
  else match helperLoop ext ps0 [] S0 with
    | .error Sf => .herr .tooLargeVarOuter Sf
    | .ok (ps1, S1) => addClauseHelperRest ext ps1 S1

/-- Result of Solver::addClause / add_clause_outer: a boolean return or a
raised/fatal error carrying the state at that point. -/
inductive AddRes where
  | ares (b : Bool) (S : SolverState)
  | aerr (e : AddErr) (S : SolverState)
deriving DecidableEq, Repr

/-- Solver::addClause: the blocked-clauses fatal check, the helper, the
internal add with attachment, the DRAT emission for a clause the cleaning
changed, and the dispatch of an allocated long clause into longIrredCls or
the redundant tier selected by whichRedArray. -/
def addClause (ext : Ext) (S : SolverState) (lits : List Lit) (red : Bool) : AddRes :=
  if S.conf.perform_occur_based_simp ∧ S.anythingHasBeenBlocked then
    .aerr .blockedClauses S
  else
    let origTrailSize := S.trail.length
    match addClauseHelper ext S lits with
    | .herr e S' => .aerr e S'
    | .hfalse S' => .ares false S'
    | .hok ps S1 =>
      let psSorted := sortLits ps
      let r := addClauseInt ext S1 psSorted red defaultGlue true false
      let finalCl := r.2.1
      let S2 := r.2.2
      let S3 := if S2.dratEnabled ∧ psSorted ≠ finalCl then
          let S3a := if finalCl ≠ [] then {S2 with dratLog := S2.dratLog ++ [(false, finalCl)]}
            else S2
          let S3b := if S3a.ok = false then {S3a with dratLog := S3a.dratLog ++ [(false, [])]}
            else S3a
          {S3b with dratLog := S3b.dratLog ++ [(true, psSorted)]}
        else S2
      let S4 := match r.1 with
        | none => S3
        | some c =>
          if red = false then {S3 with longIrredCls := S3.longIrredCls ++ [c]}
          else
            let tier := whichRedArray c.glue S3.conf.glue_put_lev0_if_below_or_eq
              S3.conf.glue_put_lev1_if_below_or_eq
            let c2 := {c with whichRed := tier}
            {S3 with longRedCls :=
              S3.longRedCls.set tier ((S3.longRedCls.getD tier []) ++ [c2])}
      let S5 := {S4 with zeroLevAssignsByCNF :=
        S4.zeroLevAssignsByCNF + (S4.trail.length - origTrailSize)}
      .ares S5.ok S5

/-- Modelled from the spec: Solver::new_var(true) allocates a fresh BVA
variable at the top of the namespaces, with undef value and no removal tag;
the allocation itself happens in Searcher/PropEngine::new_var, outside the
analysed translation unit (spec sections 3 and 4.3). -/
def newVarBva (S : SolverState) : SolverState :=
  {S with nVars := S.nVars + 1, nVarsOuter := S.nVarsOuter + 1,
          assigns := S.assigns ++ [.lundef], removedTag := S.removedTag ++ [.rnone]}

/-- Solver::num_bits_set: number of set bits among the low maxSize bits. -/
def numBitsSet (x maxSize : Nat) : Nat :=
  (List.range maxSize).foldl (fun acc i => if (x >>> i) &&& 1 = 1 then acc + 1 else acc) 0

/-- Literals of one combination clause of the XOR expansion: position `a` is
flipped exactly when bit `a` of `i` is set (the new_lits loop of
Solver::add_xor_clause_inter_cleaned_cut). -/
def xorCombLits (lits : List Lit) (i : Nat) : List Lit :=
  (List.range lits.length).map
    (fun a => (lits.getD a 0) ^^^ (if (i >>> a) &&& 1 = 1 then 1 else 0))

/-- The odd-parity combinations emitted for one cut: every index below
2^k whose bit count is odd, mapped to its combination clause. -/
def oddCombs (lits : List Lit) : List (List Lit) :=
  ((List.range (2 ^ lits.length)).filter
    (fun i => numBitsSet i lits.length % 2 = 1)).map (xorCombLits lits)

/-- One iteration of the combination loop of
Solver::add_xor_clause_inter_cleaned_cut: skip even-parity indices, add the
combination as an irredundant standard clause, and push an allocated long
clause onto longIrredCls.  The source returns as soon as ok turns false; the
`assert(ok)` precondition of add_clause_int is modelled by skipping once ok
is false.  Each generated combination is recorded in the xorGenLog ghost
field. -/
def cleanedCutStep (ext : Ext) (lits : List Lit) (attachLong addDrat : Bool)
    (Sc : SolverState) (i : Nat) : SolverState :=
  if numBitsSet i lits.length % 2 = 0 then Sc
  else if Sc.ok = false then Sc
  else
    let nl := xorCombLits lits i
    let Sc1 := {Sc with xorGenLog := Sc.xorGenLog ++ [nl]}
    let r := addClauseInt ext Sc1 nl false defaultGlue attachLong addDrat
    match r.1 with
    | some c => {r.2.2 with longIrredCls := r.2.2.longIrredCls ++ [c]}
    | none => r.2.2

/-- Solver::add_xor_clause_inter_cleaned_cut: run the combination step over
every index below 2^k. -/
def addXorClauseInterCleanedCut (ext : Ext) (S : SolverState) (lits : List Lit)
    (attachLong addDrat : Bool) : SolverState :=
  (List.range (2 ^ lits.length)).foldl (cleanedCutStep ext lits attachLong addDrat) S

/-- One iteration of the cutting loop of Solver::add_every_combination_xor:
take up to two literals at the current position, then the previous chain
literal (or, when there is none, one further literal), then the final
literal when exactly one would remain.  Returns the collected literals and
the advanced position. -/
def cutChunk (lits : List Lit) (pos : Nat) (lastlit : Option Lit) : List Lit × Nat :=
  let xl1 := (lits.drop pos).take 2
  let a1 := pos + xl1.length
  let st2 : List Lit × Nat :=
    match lastlit with
    | some l => (xl1 ++ [l], a1)
    | none => if a1 < lits.length then (xl1 ++ [lits.getD a1 0], a1 + 1) else (xl1, a1)
  if st2.2 + 1 = lits.length then (st2.1 ++ [lits.getD st2.2 0], st2.2 + 1) else st2

/-- The while loop of Solver::add_every_combination_xor.  The loop advances
`pos` by at least one per iteration, so `lits.length` units of fuel always
suffice; under the loop invariant `pos ≤ lits.length` the stop test
`lits.length ≤ pos` coincides with the source's `at != lits.size()`.  A
fresh BVA chain variable is allocated whenever literals remain; each cut is
recorded in the xorCutsLog ghost field at the point the source calls
add_xor_clause_inter_cleaned_cut. -/
def addEveryCombinationXorGo (ext : Ext) (lits : List Lit) (attachLong addDrat : Bool) :
    Nat → Nat → Option Lit → SolverState → SolverState
  | 0, _, _, S => S
  | fuel + 1, pos, lastlit, S =>
    if lits.length ≤ pos then S
    else
      let ck := cutChunk lits pos lastlit
      if ck.2 ≠ lits.length then
        let S1 := newVarBva S
        let nl : Lit := 2 * (S1.nVars - 1)
        let xl := ck.1 ++ [nl]
        let S2 := {S1 with xorCutsLog := S1.xorCutsLog ++ [xl]}
        let S3 := addXorClauseInterCleanedCut ext S2 xl attachLong addDrat
        if S3.ok = false then S3
        else addEveryCombinationXorGo ext lits attachLong addDrat fuel ck.2 (some nl) S3
      else
        let S2 := {S with xorCutsLog := S.xorCutsLog ++ [ck.1]}
        let S3 := addXorClauseInterCleanedCut ext S2 ck.1 attachLong addDrat
        if S3.ok = false then S3
        else addEveryCombinationXorGo ext lits attachLong addDrat fuel ck.2 lastlit S3

/-- Solver::add_every_combination_xor, entered at position 0 with no chain
literal. -/
def addEveryCombinationXor (ext : Ext) (S : SolverState) (lits : List Lit)
    (attachLong addDrat : Bool) : SolverState :=
  addEveryCombinationXorGo ext lits attachLong addDrat lits.length 0 none S

/-- The sign-pulling pass of Solver::add_xor_clause_inter: every negative
literal is made positive and rhs is flipped for each. -/
def xorStripSigns (lits : List Lit) (rhs : Bool) : List Lit × Bool :=
  lits.foldl (fun acc l =>
    if litSign l then (acc.1 ++ [l ^^^ 1], !acc.2) else (acc.1 ++ [l], acc.2)) ([], rhs)

/-- The dedup-and-fold scan of Solver::add_xor_clause_inter over the sorted
positive literals: a repeated variable cancels the previously retained
literal (folding an assigned value into rhs); an unassigned literal is
retained; an assigned literal folds into rhs instead of being added. -/
def xorCleanScan (assigns : List Lbool) : List Lit → List Lit → Option Lit → Bool →
    List Lit × Bool
  | [], kept, _, rhs => (kept, rhs)
  | l :: ls, kept, p, rhs =>
    if p.map litVar = some (litVar l) then
      let rhs2 := if valueLit assigns l ≠ .lundef
        then Bool.xor rhs (valueLit assigns l == .ltrue) else rhs
      xorCleanScan assigns ls kept.dropLast none rhs2
    else if valueLit assigns l = .lundef then
      xorCleanScan assigns ls (kept ++ [l]) (some l) rhs
    else
      xorCleanScan assigns ls kept p (Bool.xor rhs (valueLit assigns l == .ltrue))

/-- The cleaning prefix of Solver::add_xor_clause_inter (strip signs, sort,
dedup/fold), split out so that the size check can be stated about the
cleaned literal list. -/
def xorCleanPrefix (S : SolverState) (lits : List Lit) (rhs : Bool) : List Lit × Bool :=
  let sp := xorStripSigns lits rhs
  xorCleanScan S.assigns (sortLits sp.1) [] none sp.2

/-- Result of Solver::add_xor_clause_inter: a boolean return, or the raised
TooLongClause exception carrying the state at the throw. -/
inductive XorRes where
  | xres (b : Bool) (S : SolverState)
  | xerr (S : SolverState)
deriving DecidableEq, Repr

/-- Solver::add_xor_clause_inter: clean; raise TooLongClause when the cleaned
size is at least 2^28; on an empty residual refute exactly when rhs is true;
otherwise store the XOR for the Gaussian engine when its size exceeds two,
fold rhs into the first literal, and run the cutting transformation. -/
def addXorClauseInter (ext : Ext) (S : SolverState) (lits : List Lit) (rhs : Bool)
    (attachLong addDrat : Bool) : XorRes :=
  let pr := xorCleanPrefix S lits rhs
  let ps := pr.1
  let rhs2 := pr.2
  if 2 ^ 28 ≤ ps.length then .xerr S
  else if ps ≠ [] then
    let S1 := if 2 < ps.length
      then {S with xorclauses := S.xorclauses ++ [(ps.map litVar, rhs2)]} else S
    let ps2 := (ps.headI ^^^ (if rhs2 then 1 else 0)) :: ps.tail
    let S2 := addEveryCombinationXor ext S1 ps2 attachLong addDrat
    .xres S2.ok S2
  else if rhs2 then .xres false {S with ok := false, dratLog := S.dratLog ++ [(false, [])]}
  else .xres S.ok S

/-- Modelled from the spec: CNF::map_to_with_bva / back_number_from_outside_
to_outer translate an outside literal to the outer namespace through the
outside-to-outer map (spec section 3: identity plus BVA skip); the map
itself lives outside the analysed translation unit. -/
def backNumberOutsideToOuter (S : SolverState) (lits : List Lit) : List Lit :=
  lits.map (fun l =>
    2 * (S.outsideToOuterMap.getD (litVar l) (litVar l)) + (if litSign l then 1 else 0))

/-- Solver::add_clause_outer: return false at once when already refuted,
fatally reject variables at or above nVarsOutside, then back-number the
literals and call addClause. -/
def addClauseOuter (ext : Ext) (S : SolverState) (lits : List Lit) (red : Bool) : AddRes :=
  if S.ok = false then .ares false S
  else if lits.any (fun l => S.nVarsOutside ≤ litVar l) then .aerr .tooLargeVarOutside S
  else addClause ext S (backNumberOutsideToOuter S lits) red

/-- C++ conversion of a signed long to uint64_t: reduction modulo 2^64. -/
def u64cast (x : Int) : Nat := (x % (2 ^ 64 : Int)).toNat

/-- The budget/interrupt predicate checked between strategy tokens in
Solver::execute_inprocess_strategy: conflicts at or above maxConfl (cast to
uint64), CPU time above maxTime, an asserted interrupt, no variables left,
or a refuted solver. -/
def inprocessBudgetStop (S : SolverState) : Bool :=
  decide (u64cast S.conf.maxConfl ≤ S.sumConflicts) ||
  decide (S.conf.maxTime < S.cpuTimeNow) ||
  S.mustInterrupt ||
  decide (S.nVars = 0) ||
  !S.ok

/-- The dispatch bodies of the strategy tokens delegate to external
simplifier collaborators (CompFinder, CompHandler, VarReplacer, the
implication cache, the probers, the distillers, the renumberer's
collaborators, the occurrence simplifier); they are abstracted as one state
transformer per executed non-occ token plus one for a flushed occ-token
batch (OccSimplifier::simplify, including the occ-gauss matrix finder), so
the scheduler theorems hold for every dispatch behaviour, including
dispatches that refute the solver. -/
structure TokenExec where
  dispatch : String → SolverState → SolverState
  occFlush : String → SolverState → SolverState

/-- Modelled from the spec: token trimming and lowercasing (the trim utility
lives outside the analysed translation unit; spec section 6: tokens are
trimmed and lowercased). -/
def tokenNorm (t : String) : String := t.trim.toLower

/-- The token loop of Solver::execute_inprocess_strategy over the
comma-split token list: check the budget predicate before handling each
token; flush a pending occ-token buffer through the occurrence simplifier
before the next non-occ token, re-checking the budget after the flush;
buffer occ-prefixed tokens; skip empty tokens; dispatch the rest, stopping
with the current ok when a budget condition holds or ok turns false after a
dispatch.  Returns the final ok, the state, and a ghost log of the executed
dispatches. -/
def inprocessLoop (ex : TokenExec) : List String → String → SolverState →
    Bool × SolverState × List String
  | [], _, S => (S.ok, S, [])
  | t :: ts, occBuf, S =>
    if inprocessBudgetStop S then (S.ok, S, [])
    else
      let token := tokenNorm t
      let flushNeeded := occBuf ≠ "" ∧ token.take 3 ≠ "occ"
      let S1 := if flushNeeded ∧ S.conf.perform_occur_based_simp
        then ex.occFlush occBuf.trim S else S
      let log1 : List String := if flushNeeded ∧ S.conf.perform_occur_based_simp
        then [occBuf.trim] else []
      let occBuf1 := if flushNeeded then "" else occBuf
      if flushNeeded ∧ inprocessBudgetStop S1 then (S1.ok, S1, log1)
      else if token.take 3 = "occ" then
        let r := inprocessLoop ex ts (occBuf1 ++ token ++ ", ") S1
        (r.1, r.2.1, log1 ++ r.2.2)
      else if token = "" then
        let r := inprocessLoop ex ts occBuf1 S1
        (r.1, r.2.1, log1 ++ r.2.2)
      else
        let S2 := ex.dispatch token S1
        if S2.ok = false then (S2.ok, S2, log1 ++ [token])
        else
          let r := inprocessLoop ex ts occBuf1 S2
          (r.1, r.2.1, log1 ++ [token] ++ r.2.2)

/-- Solver::execute_inprocess_strategy: the source appends ", " to the
strategy string before splitting at commas, which yields the token list
followed by one trailing blank token; the loop starts with an empty occ
buffer. -/
def execute_inprocess_strategy (ex : TokenExec) (S : SolverState)
    (tokens : List String) : Bool × SolverState × List String :=
  inprocessLoop ex (tokens ++ [" "]) "" S

/-- A concrete collaborator instantiation used by witnesses: propagation
reports no conflict and leaves the state unchanged; the other collaborators
are identities. -/
def extId : Ext :=
  { propagate := fun S => (S, true)
    uneliminate := fun S _ => (true, S)
    readdRemovedClauses := fun S => S
    newVarOuter := fun S _ => S }

/-- C++ double-to-long conversion: truncation toward zero, on the exact
rationals standing in for doubles. -/
def truncQ (q : ℚ) : Int := if 0 ≤ q then ⌊q⌋ else ⌈q⌉

/-- Solver::calc_num_confl_to_do_this_iter: the geometric multiplier
inc^iteration capped at num_conflicts_of_search_inc_max, times the base
num_conflicts_of_search (truncated to long), overridden by a fixed 500
million when never_stop_search is set, and capped by the remaining global
conflict budget maxConfl - sumConflicts.  std::pow on doubles is modelled as
exact rational exponentiation. -/
def calc_num_confl_to_do_this_iter (conf : SolverConf) (sumConflicts : Nat)
    (iteration_num : Nat) : Int :=
  let mult := min (conf.num_conflicts_of_search_inc ^ iteration_num)
    conf.num_conflicts_of_search_inc_max
  let base := truncQ ((conf.num_conflicts_of_search : ℚ) * mult)
  let n := if conf.never_stop_search then (500 * 1000 * 1000 : Int) else base
  min n (conf.maxConfl - (sumConflicts : Int))

/-- The conflict budget exactly as claim C9 words it:
min(base · growth^iteration, maxConfl − conflicts so far).  This definition
follows the spec text (no growth cap, no never_stop_search override) and is
compared against calc_num_confl_to_do_this_iter, which follows the source. -/
def specNumConflFormula (conf : SolverConf) (sumConflicts iteration_num : Nat) : Int :=
  min (truncQ ((conf.num_conflicts_of_search : ℚ) *
      conf.num_conflicts_of_search_inc ^ iteration_num))
    (conf.maxConfl - (sumConflicts : Int))

/-- The external collaborators of the driver loop of
Solver::iterate_until_solved: Searcher::solve (taking the conflict budget
and the iteration number), the between-iterations work that touches only
fields outside the budget computation (clear_gauss, statistics folding, the
minimization-effectiveness checks, the low-glue cutoff adjustment), and
simplify_problem.  Taken as parameters, the driver theorems hold for every
behaviour of them. -/
structure DriverExt where
  searcherSolve : SolverState → Int → Nat → SolverState × Lbool
  interIter : Lbool → SolverState → SolverState
  simplifyProblem : SolverState → SolverState × Lbool

/-- Ghost log entry for one Searcher::solve call of the driver loop: the
state at the budget computation, the iteration number, and the budget
handed over. -/
structure DriverLogEntry where
  st : SolverState
  iter : Nat
  budget : Int
deriving DecidableEq, Repr

/-- The while loop of Solver::iterate_until_solved, with fuel (the theorems
hold for every fuel) and a ghost log of the Searcher::solve calls.  Per
iteration: the loop guard (undef status, no interrupt, time and conflicts
within budget), the burst-length restoration from the second iteration on,
the budget computation, the break on a non-positive budget BEFORE searching,
the search call, the between-iterations work, the break on a verdict, the
break on budget exhaustion, and the simplification step. -/
def iterateLoop (ex : DriverExt) (backupBurst : Nat) :
    Nat → Nat → Lbool → SolverState → Lbool × SolverState × List DriverLogEntry
  | 0, _, status, S => (status, S, [])
  | fuel + 1, iteration_num, status, S =>
    if status = .lundef ∧ S.mustInterrupt = false ∧ S.cpuTimeNow < S.conf.maxTime ∧
        S.sumConflicts < u64cast S.conf.maxConfl then
      let it2 := iteration_num + 1
      let S0 := if 2 ≤ it2 then
          {S with conf := {S.conf with burst_search_len := backupBurst}} else S
      let num_confl := calc_num_confl_to_do_this_iter S0.conf S0.sumConflicts it2
      if num_confl ≤ 0 then (status, S0, [])
      else
        let pr := ex.searcherSolve S0 num_confl it2
        let S1 := ex.interIter pr.2 pr.1
        if pr.2 ≠ .lundef then (pr.2, S1, [⟨S0, it2, num_confl⟩])
        else if u64cast S1.conf.maxConfl ≤ S1.sumConflicts ∨
            S1.conf.maxTime < S1.cpuTimeNow ∨ S1.mustInterrupt = true then
          (pr.2, S1, [⟨S0, it2, num_confl⟩])
        else
          let pr2 := if S1.conf.do_simplify_problem then ex.simplifyProblem S1
            else (S1, pr.2)
          let r := iterateLoop ex backupBurst fuel it2 pr2.2 pr2.1
          (r.1, r.2.1, ⟨S0, it2, num_confl⟩ :: r.2.2)
    else (status, S, [])

/-- Solver::iterate_until_solved: back up and zero the burst length, run the
loop from iteration 0 with an undef status, and restore the burst length on
exit (clear_gauss is external and touches no modelled field). -/
def iterate_until_solved (ex : DriverExt) (fuel : Nat) (S : SolverState) :
    Lbool × SolverState × List DriverLogEntry :=
  let backup := S.conf.burst_search_len
  let r := iterateLoop ex backup fuel 0 .lundef
    {S with conf := {S.conf with burst_search_len := 0}}
  (r.1, {r.2.1 with conf := {r.2.1.conf with burst_search_len := backup}}, r.2.2)

/-- The collaborator stages of Solver::solve that live outside the analysed
translation unit: the Searcher restart-parameter setup, DataSync
rebuild_bva_map with set_assumptions, load_state/load_solution for
preprocess mode 2, the simplify-at-startup call, and the end-block work
before the budget reset (SQL finish-up, the preprocess-1 state dump, the
found-solution handler, assumption bookkeeping).  Taken as parameters, the
solve theorem holds for every behaviour of them. -/
structure SolveExt where
  setupSearch : SolverState → SolverState
  rebuildAndAssumptions : SolverState → SolverState
  loadState : SolverState → SolverState × Lbool
  simplifyAtStartup : SolverState → SolverState × Lbool
  finishStages : Lbool → SolverState → SolverState

/-- std::numeric_limits of long, its maximum on the LP64 target. -/
def longMax : Int := 2 ^ 63 - 1

/-- std::numeric_limits of double, its maximum — an exactly representable
rational. -/
def dblMax : ℚ := 2 ^ 1024 - 2 ^ 971

/-- Solver::solve: count the call, clear the conflict, check the
configuration (the fatal exits of check_config_parameters are modelled as
none), set up the restart parameters, reset the timeout multiplier,
short-circuit a refuted solver to l_False, otherwise rebuild BVA maps and
assumptions, load state in preprocess mode 2, simplify at startup when
configured, run the driver loop in preprocess mode 0, run the end-block
stages — and, on the single return path, overwrite conf.maxConfl and
conf.maxTime with their maximum representable values before returning. -/
def solve (sx : SolveExt) (dx : DriverExt) (fuel : Nat) (S : SolverState) :
    Option (Lbool × SolverState) :=
  if S.conf.maxConfl < 0 ∨ S.conf.shortTermHistorySize ≤ 0 then none
  else
    let Sa := sx.setupSearch {S with solveCalls := S.solveCalls + 1, conflict := []}
    let Sb := {Sa with conf :=
      {Sa.conf with global_timeout_multiplier := Sa.conf.orig_global_timeout_multiplier}}
    let core : Lbool × SolverState :=
      if Sb.ok = false then (.lfalse, Sb)
      else
        let Sc := sx.rebuildAndAssumptions Sb
        let pr1 := if Sc.conf.preprocess = 2 then sx.loadState Sc else (Sc, .lundef)
        let pr2 := if pr1.2 = .lundef ∧ 0 < pr1.1.nVars ∧ pr1.1.conf.do_simplify_problem ∧
            pr1.1.conf.simplify_at_startup ∧
            (pr1.1.numSimplify = 0 ∨ pr1.1.conf.simplify_at_every_startup)
          then sx.simplifyAtStartup pr1.1 else pr1
        if pr2.2 = .lundef ∧ pr2.1.conf.preprocess = 0 then
          let r := iterate_until_solved dx fuel pr2.1
          (r.1, r.2.1)
        else (pr2.2, pr2.1)
    let Sf := sx.finishStages core.1 core.2
    some (core.1, {Sf with conf := {Sf.conf with maxConfl := longMax, maxTime := dblMax}})

/-- A concrete token executor used by witnesses: every dispatch and every
occ flush leaves the state unchanged. -/
def extTokensId : TokenExec :=
  { dispatch := fun _ S => S
    occFlush := fun _ S => S }

/-- A concrete driver-collaborator instantiation used by witnesses: the
searcher immediately reports SAT and changes nothing. -/
def extDriverW : DriverExt :=
  { searcherSolve := fun S _ _ => (S, .ltrue)
    interIter := fun _ S => S
    simplifyProblem := fun S => (S, .lundef) }

/-- A concrete driver-collaborator instantiation whose searcher always
returns undef and changes nothing, driving several loop iterations. -/
def extDriverU : DriverExt :=
  { searcherSolve := fun S _ _ => (S, .lundef)
    interIter := fun _ S => S
    simplifyProblem := fun S => (S, .lundef) }

/-- The uselessness condition of Solver::calculate_interToOuter_and_
outerToInter, calc_renumber_saving and test_renumbering: a variable is
useless for renumbering when it is assigned or its removed tag is elimed,
replaced or decomposed. -/
def renumberUseless (values : List Lbool) (removed : List RemovedT) (i : Nat) : Bool :=
  !(valueVar values i == .lundef) ||
  (removed.getD i .rnone == .elimed) ||
  (removed.getD i .rnone == .replaced) ||
  (removed.getD i .rnone == .decomposed)

/-- The first loop of calculate_interToOuter_and_outerToInter: walk the
inter variables in order; a useless variable is queued, an active one gets
the next inter slot (the sequential writes interToOuter[at++] are modelled
as appends, with `at` equal to the appended length).  Accumulator:
(outerToInter, interToOuter, useless, numEffectiveVars). -/
def renumLoop1 (act : Nat → Bool) : List Nat → List Nat × List Nat × List Nat × Nat →
    List Nat × List Nat × List Nat × Nat
  | [], st => st
  | i :: is, (o2i, i2o, useless, numEff) =>
    if act i then
      renumLoop1 act is (o2i.set i i2o.length, i2o ++ [i], useless, numEff + 1)
    else
      renumLoop1 act is (o2i, i2o, useless ++ [i], numEff)

/-- The second loop of calculate_interToOuter_and_outerToInter: append the
queued useless variables after the active ones. -/
def renumLoop2 : List Nat → List Nat × List Nat → List Nat × List Nat
  | [], st => st
  | u :: us, (o2i, i2o) => renumLoop2 us (o2i.set u i2o.length, i2o ++ [u])

/-- The third loop of calculate_interToOuter_and_outerToInter: the identity
continuation on [nVars, nVarsOuter) (at equals i there, so the write
interToOuter[i] = i is the next append). -/
def renumLoop3 : List Nat → List Nat × List Nat → List Nat × List Nat
  | [], st => st
  | i :: is, (o2i, i2o) => renumLoop3 is (o2i.set i i, i2o ++ [i])

/-- Solver::calculate_interToOuter_and_outerToInter: active variables first
(in outer order), then useless ones, then the identity up to nVarsOuter.
Returns (outerToInter, interToOuter, numEffectiveVars); the two map vectors
start zero-initialised at size nVarsOuter as in the source. -/
def calculate_interToOuter_and_outerToInter (values : List Lbool)
    (removed : List RemovedT) (nVars nVarsOuter : Nat) :
    List Nat × List Nat × Nat :=
  let act := fun i => !(renumberUseless values removed i)
  let r1 := renumLoop1 act (List.range nVars)
    (List.replicate nVarsOuter 0, [], [], 0)
  let r2 := renumLoop2 r1.2.2.1 (r1.1, r1.2.1)
  let r3 := renumLoop3 (List.range' nVars (nVarsOuter - nVars)) r2
  (r3.1, r3.2, r1.2.2.2)

/-- One iteration of Solver::test_renumbering over (uninteresting, problem):
the flag uninteresting latches on an assigned-or-removed variable, and an
active variable seen while the flag is set is a problem. -/
def testRenumStep (values : List Lbool) (removed : List RemovedT)
    (acc : Bool × Bool) (i : Nat) : Bool × Bool :=
  (acc.1 || renumberUseless values removed i,
   acc.2 || (!(renumberUseless values removed i) && (acc.1 || renumberUseless values removed i)))

/-- Solver::test_renumbering: scan the inter variables in order; returns
true when no problem was found (the assert in the source passes). -/
def test_renumbering (values : List Lbool) (removed : List RemovedT) (nVars : Nat) :
    Bool :=
  !((List.range nVars).foldl (testRenumStep values removed) (false, false)).2

/-- Modelled from the spec: after renumbering, every structure indexed by
variables is permuted so that inter slot i holds what slot interToOuter[i]
held before (spec section 4.5 step 3; the updateVars implementations live
outside the analysed translation unit).  Permuted assignment vector. -/
def renumberedValues (values : List Lbool) (interToOuter : List Nat) (nVars : Nat) :
    List Lbool :=
  (List.range nVars).map (fun i => values.getD (interToOuter.getD i i) .lundef)

/-- Modelled from the spec: the permuted removed-tag vector after
renumbering (spec section 4.5 step 3). -/
def renumberedRemoved (removed : List RemovedT) (interToOuter : List Nat) (nVars : Nat) :
    List RemovedT :=
  (List.range nVars).map (fun i => removed.getD (interToOuter.getD i i) .rnone)

/-- A concrete solve-collaborator instantiation used by witnesses: every
stage leaves the state unchanged and reports undef. -/
def extSolveW : SolveExt :=
  { setupSearch := fun S => S
    rebuildAndAssumptions := fun S => S
    loadState := fun S => (S, .lundef)
    simplifyAtStartup := fun S => (S, .lundef)
    finishStages := fun _ S => S }

/-- A concrete configuration used by witnesses. -/
def confA : SolverConf :=
  { perform_occur_based_simp := false
    glue_put_lev0_if_below_or_eq := 3
    glue_put_lev1_if_below_or_eq := 5
    maxConfl := 1000
    maxTime := 1000
    num_conflicts_of_search := 100
    num_conflicts_of_search_inc := 2
    num_conflicts_of_search_inc_max := 4
    never_stop_search := false
    do_simplify_problem := false
    compHandlerPresent := false
    shortTermHistorySize := 50
    preprocess := 0
    simplify_at_startup := false
    simplify_at_every_startup := false
    burst_search_len := 300
    global_timeout_multiplier := 1
    orig_global_timeout_multiplier := 1 }

/-- A concrete live solver state with four unassigned variables, used by
witnesses. -/
def stateA : SolverState :=
  { ok := true
    nVars := 4
    nVarsOuter := 4
    nVarsOutside := 4
    assigns := List.replicate 4 .lundef
    trail := []
    longIrredCls := []
    longRedCls := [[], [], []]
    binClauses := []
    irredBins := 0
    redBins := 0
    numNewBinsSinceSCC := 0
    irredLits := 0
    redLits := 0
    zeroLevAssignsByCNF := 0
    undef_must_set_vars := []
    interToOuter := [0, 1, 2, 3]
    outerToInter := [0, 1, 2, 3]
    outsideToOuterMap := [0, 1, 2, 3]
    replaceMapOuter := []
    removedTag := List.replicate 4 .rnone
    anythingHasBeenBlocked := false
    dratEnabled := false
    dratLog := []
    binSignalLog := []
    xorclauses := []
    xorCutsLog := []
    xorGenLog := []
    sumConflicts := 0
    cpuTimeNow := 0
    mustInterrupt := false
    solveCalls := 0
    numSimplify := 0
    conflict := []
    conf := confA }

/-- The result of the concrete solve run used by the C10 witness. -/
def solveRunW : Lbool × SolverState :=
  (solve extSolveW extDriverW 0 stateA).getD (.lundef, stateA)

/-- The transient state of Solver::undefine (the FindUndef helper object):
the candidate flags can_be_unset, the running counter can_be_unsetSum, the
per-variable satisfaction counters, the per-long-clause skip flags, and the
must_fix flag set by undef_look_at_one_clause. -/
structure FindUndef where
  can_be_unset : List Bool
  can_be_unsetSum : Nat
  satisfies : List Nat
  dontLookAtClause : List Bool
  must_fix : Bool
deriving DecidableEq, Repr

/-- Number of set entries of a flag vector: the quantity the source tracks
incrementally in can_be_unsetSum. -/
def countTrue : List Bool → Nat
  | [] => 0
  | b :: bs => (if b then 1 else 0) + countTrue bs

/-- The literal scan of Solver::undef_look_at_one_clause: a true literal
whose variable is no candidate ends the scan early (none, clause definitely
satisfied); otherwise the scan counts true literals, remembering the last
such variable (var_Undef is never read, so the accumulator starts at 0). -/
def undefLookScan (model : List Lbool) (canUnset : List Bool) :
    List Lit → Nat → Nat → Option (Nat × Nat)
  | [], numTrue, v => some (numTrue, v)
  | l :: ls, numTrue, v =>
    if valueLit model l == .ltrue then
      if canUnset.getD (litVar l) false then
        undefLookScan model canUnset ls (numTrue + 1) (litVar l)
      else none
    else undefLookScan model canUnset ls numTrue v

/-- The voting loop at the end of undef_look_at_one_clause: every true
literal of the clause credits its variable in satisfies. -/
def undefBumpSatisfies (model : List Lbool) : List Lit → List Nat → List Nat
  | [], sat => sat
  | l :: ls, sat =>
    undefBumpSatisfies model ls
      (if valueLit model l == .ltrue then
        sat.set (litVar l) (sat.getD (litVar l) 0 + 1)
      else sat)

/-- Solver::undef_look_at_one_clause: true when the clause is definitely
satisfied.  A true literal with a non-candidate variable returns at once;
exactly one candidate true literal gets fixed (can_be_unset cleared, counter
decremented); otherwise the clause votes for its true literals and raises
must_fix. -/
def undef_look_at_one_clause (model : List Lbool) (c : List Lit)
    (st : FindUndef) : Bool × FindUndef :=
  match undefLookScan model st.can_be_unset c 0 0 with
  | none => (true, st)
  | some (numTrue, v) =>
    if numTrue = 1 then
      (true, { st with
                can_be_unset := st.can_be_unset.set v false
                can_be_unsetSum := st.can_be_unsetSum - 1 })
    else
      (false, { st with
                 must_fix := true
                 satisfies := undefBumpSatisfies model c st.satisfies })

/-- The long-clause pass of Solver::undef_check_must_fix: clause i is
skipped when dontLookAtClause[i] is set, and marked there when the look
reports it definitely satisfied. -/
def undefLongPass (model : List Lbool) :
    List (List Lit) → Nat → FindUndef → FindUndef
  | [], _, st => st
  | c :: cs, i, st =>
    if st.dontLookAtClause.getD i false then
      undefLongPass model cs (i + 1) st
    else
      match undef_look_at_one_clause model c st with
      | (b, st2) =>
        if b then
          undefLongPass model cs (i + 1)
            { st2 with dontLookAtClause := st2.dontLookAtClause.set i true }
        else
          undefLongPass model cs (i + 1) st2

/-- The watch scan for one literal in undef_check_must_fix: every binary
watch with l below its second literal is looked at (the returned flag is
discarded, as in the source). -/
def undefBinInner (model : List Lbool) (l : Lit) :
    List Lit → FindUndef → FindUndef
  | [], st => st
  | l2 :: ws, st =>
    if l < l2 then
      undefBinInner model l ws (undef_look_at_one_clause model [l, l2] st).2
    else
      undefBinInner model l ws st

/-- The binary pass of Solver::undef_check_must_fix: a literal that is true
with a non-candidate variable is skipped entirely; otherwise its binary
watch list is scanned. -/
def undefBinPass (model : List Lbool) (watches : List (List Lit)) :
    List Lit → FindUndef → FindUndef
  | [], st => st
  | l :: ls, st =>
    if !(st.can_be_unset.getD (litVar l) false) && (valueLit model l == .ltrue) then
      undefBinPass model watches ls st
    else
      undefBinPass model watches ls (undefBinInner model l (watches.getD l []) st)

/-- Solver::undef_check_must_fix: reset must_fix, run the long-clause pass
over longIrredCls and the binary pass over all 2*nVars literals, and report
must_fix.  Only the binary entries of each watch list are modelled, since
every other watch kind is discarded by the isBin filter in the source. -/
def undef_check_must_fix (model : List Lbool) (cls : List (List Lit))
    (watches : List (List Lit)) (nVars : Nat) (st : FindUndef) :
    Bool × FindUndef :=
  match undefBinPass model watches (List.range (2 * nVars))
      (undefLongPass model cls 0 { st with must_fix := false }) with
  | st2 => (st2.must_fix, st2)

/-- The argmax scan of Solver::undefine: among the candidate variables pick
the one satisfying the most clauses, later indices winning ties (the source
compares with >=); the accumulator v starts at the out-of-range sentinel. -/
def undefPickGo (canUnset : List Bool) (sat : List Nat) :
    List Nat → Nat → Nat → Nat × Nat
  | [], maximum, v => (maximum, v)
  | i :: rest, maximum, v =>
    if canUnset.getD i false && decide (maximum ≤ sat.getD i 0) then
      undefPickGo canUnset sat rest (sat.getD i 0) i
    else
      undefPickGo canUnset sat rest maximum v

/-- The fixpoint loop of Solver::undefine, fuel-indexed: while
undef_check_must_fix reports a conflict and candidates remain, fix the
candidate satisfying the most clauses, decrement the counter and zero the
satisfaction counters. -/
def undefLoop (model : List Lbool) (cls : List (List Lit))
    (watches : List (List Lit)) (nVars : Nat) : Nat → FindUndef → FindUndef
  | 0, st => st
  | fuel + 1, st =>
    match undef_check_must_fix model cls watches nVars st with
    | (b, st2) =>
      if b && decide (0 < st2.can_be_unsetSum) then
        undefLoop model cls watches nVars fuel
          { st2 with
              can_be_unset := st2.can_be_unset.set
                (undefPickGo st2.can_be_unset st2.satisfies
                  (List.range st2.can_be_unset.length) 0
                  st2.can_be_unset.length).2 false
              can_be_unsetSum := st2.can_be_unsetSum - 1
              satisfies := List.replicate st2.satisfies.length 0 }
      else st2

/-- Solver::undef_unset_potentials: every surviving candidate variable is
unset in the model (the index-carrying rewrite of the indexed loop). -/
def undefUnsetFrom (canUnset : List Bool) : Nat → List Lbool → List Lbool
  | _, [] => []
  | i, x :: xs =>
    (if canUnset.getD i false then Lbool.lundef else x) ::
      undefUnsetFrom canUnset (i + 1) xs

/-- The FindUndef state Solver::undefine builds before the loop,
parameterised over the candidate set prepared by undef_fill_potentials:
counters zeroed, skip flags cleared, can_be_unsetSum counting the
candidates. -/
def undefInit (cls : List (List Lit)) (can0 : List Bool) : FindUndef :=
  { can_be_unset := can0
    can_be_unsetSum := countTrue can0
    satisfies := List.replicate can0.length 0
    dontLookAtClause := List.replicate cls.length false
    must_fix := false }

/-- The FindUndef state at the natural exit of the undefine loop; the fuel
countTrue can0 + 1 is enough because every iteration strictly decreases the
candidate count. -/
def undefineFinal (model : List Lbool) (cls : List (List Lit))
    (watches : List (List Lit)) (nVars : Nat) (can0 : List Bool) : FindUndef :=
  undefLoop model cls watches nVars (countTrue can0 + 1) (undefInit cls can0)

/-- Solver::undefine: run the fixpoint loop, then unset the surviving
candidates in the model.  Returns the minimised model and the unset set U
(the final can_be_unset flags). -/
def undefine (model : List Lbool) (cls : List (List Lit))
    (watches : List (List Lit)) (nVars : Nat) (can0 : List Bool) :
    List Lbool × List Bool :=
  (undefUnsetFrom (undefineFinal model cls watches nVars can0).can_be_unset 0 model,
   (undefineFinal model cls watches nVars can0).can_be_unset)

/-- A clause is safe for a candidate set: some literal is true under the
model and its variable is not in the set, so it stays true after the
unsetting. -/
def clauseSafe (model : List Lbool) (canUnset : List Bool) (c : List Lit) : Prop :=
  ∃ l ∈ c, valueLit model l = .ltrue ∧ canUnset.getD (litVar l) false = false

/-- Pointwise candidate-set inclusion: every flag set in a is set in b (the
loop only ever clears flags, so later sets are below earlier ones). -/
def canLe (a b : List Bool) : Prop :=
  ∀ i, a.getD i false = true → b.getD i false = true

/-- Concrete model for the minimiser fixture: all three variables true. -/
def modelU : List Lbool := [.ltrue, .ltrue, .ltrue]

/-- Concrete long-clause list for the minimiser fixture: the single clause
x0 or x1 or x2. -/
def clsU : List (List Lit) := [[0, 2, 4]]

/-- Concrete binary watch lists for the minimiser fixture: the clause
x0 or x1 stored at both of its literals. -/
def watchesU : List (List Lit) := [[2], [], [0], [], [], []]

/-- Concrete candidate set for the minimiser fixture: every variable may be
unset. -/
def canU : List Bool := [true, true, true]

/-- C5: the retention tier computed by Solver::addClause for a redundant long
clause agrees with the specification formula `glue ≤ T0 → tier 0` else
`glue ≤ T1 → tier 1` else tier 2, for every glue value and every pair of
thresholds.  The extra `t1 ≠ 0` guard in the source cannot be observed:
when `t1 = 0` and `glue ≤ t1`, then `glue = 0 ≤ t0` already selects tier 0. -/
theorem addClause_retention_tier_matches_spec (glue t0 t1 : Nat) :
    whichRedArray glue t0 t1 = specRetentionTier glue t0 t1 := by
  unfold whichRedArray specRetentionTier
  split_ifs with h1 h2 h3 h4 <;> first
  | rfl
  | omega

/-- C3: once ok has become false, add_clause_outer returns false immediately
and leaves the whole solver state unchanged — the very first statement of
Solver::add_clause_outer checks ok before any other work, so the refuted
state is sticky under clause addition, for every collaborator behaviour. -/
theorem refuted_addClauseOuter_noop (ext : Ext) (S : SolverState)
    (lits : List Lit) (red : Bool) (h : S.ok = false) :
    addClauseOuter ext S lits red = .ares false S := by
  unfold addClauseOuter
  simp [h]

/-- Witness for C3: a concrete refuted state, a concrete clause. -/
theorem refuted_addClauseOuter_noop_witness :
    ({stateA with ok := false} : SolverState).ok = false ∧
      addClauseOuter extId {stateA with ok := false} [0, 3] false =
        .ares false {stateA with ok := false} :=
  ⟨rfl, refuted_addClauseOuter_noop extId {stateA with ok := false} [0, 3] false rfl⟩

/-- C4: when the cleaning scan of sort_and_clean_clause finds a literal
complementary to the previously retained one, add_clause_int discards the
whole clause — the returned state differs from the input state in the
undef_must_set_vars vector alone, so the clause database is unchanged — and
the shared variable is marked in undef_must_set_vars exactly when the clause
is not redundant. -/
theorem clean_tautology_discards (ext : Ext) (S : SolverState) (lits : List Lit)
    (red : Bool) (glue : Nat) (attachLong addDrat : Bool) (v : Nat) (u : List Bool)
    (h : sortAndCleanClause S lits red = (.taut v, u)) :
    addClauseInt ext S lits red glue attachLong addDrat =
      (none, [], {S with undef_must_set_vars := u}) ∧
    (red = false → u = markUndefMustSet S v) ∧
    (red = true → u = S.undef_must_set_vars) := by
  refine ⟨?_, ?_, ?_⟩
  · unfold addClauseInt
    rw [h]
  · intro hred
    unfold sortAndCleanClause at h
    cases hs : cleanScan S.assigns (sortLits lits) none <;> rw [hs] at h <;>
      simp_all
    obtain ⟨h1, h2⟩ := h
    rw [← h1, h2]
  · intro hred
    unfold sortAndCleanClause at h
    cases hs : cleanScan S.assigns (sortLits lits) none <;> rw [hs] at h <;>
      simp_all

/-- Witness for C4: the clause (x₁ ∨ ¬x₁ ∨ x₂), encoded [2, 3, 4], is
discarded as a tautology; being irredundant, variable 1 is marked. -/
theorem clean_tautology_discards_witness :
    sortAndCleanClause stateA [2, 3, 4] false = (.taut 1, [false, true]) ∧
      (addClauseInt extId stateA [2, 3, 4] false 2 true false =
          (none, [], {stateA with undef_must_set_vars := [false, true]}) ∧
        (false = false → [false, true] = markUndefMustSet stateA 1) ∧
        (false = true → [false, true] = stateA.undef_must_set_vars)) :=
  ⟨by decide,
   clean_tautology_discards extId stateA [2, 3, 4] false 2 true false 1 [false, true]
     (by decide)⟩

/-- Helper: through add_clause_outer with a live solver, declared variables
and blocking disabled, a TooLongClause error is produced exactly when the
clause has strictly more than 2^28 literals, and it carries the unchanged
input state. -/
theorem addClauseOuter_tooLong_char (ext : Ext) (S : SolverState) (lits : List Lit)
    (red : Bool) (hok : S.ok = true)
    (hvars : ∀ l ∈ lits, litVar l < S.nVarsOutside)
    (hblk : ¬(S.conf.perform_occur_based_simp ∧ S.anythingHasBeenBlocked)) :
    (2 ^ 28 < lits.length → addClauseOuter ext S lits red = .aerr .tooLongClause S) ∧
    (∀ Sf : SolverState, addClauseOuter ext S lits red = .aerr .tooLongClause Sf →
      2 ^ 28 < lits.length) := by
  have hany : (lits.any fun l => decide (S.nVarsOutside ≤ litVar l)) = false := by
    simp only [List.any_eq_false, decide_eq_true_eq]
    intro l hl
    exact Nat.not_le.mpr (hvars l hl)
  have hlen_eq : (backNumberOutsideToOuter S lits).length = lits.length := by
    simp [backNumberOutsideToOuter]
  constructor
  · intro hlen
    have hh : addClauseHelper ext S (backNumberOutsideToOuter S lits) =
        .herr .tooLongClause S := by
      unfold addClauseHelper
      rw [if_neg (by simp [hok]), if_pos (by rw [hlen_eq]; exact hlen)]
    unfold addClauseOuter addClause
    rw [if_neg (by simp [hok]), if_neg (by simp [hany]), if_neg hblk, hh]
  · intro Sf heq
    by_contra hlen
    unfold addClauseOuter addClause at heq
    rw [if_neg (by simp [hok]), if_neg (by simp [hany]), if_neg hblk] at heq
    have hrest : ∀ ps1 S1 e Se, addClauseHelperRest ext ps1 S1 ≠ .herr e Se := by
      intro ps1 S1 e Se hh0
      unfold addClauseHelperRest at hh0
      rcases hu : unelimLoop ext (ps1.map (mapOuterToInterLit S1))
          (if S1.conf.compHandlerPresent ∧
              (ps1.map (mapOuterToInterLit S1)).any
                (fun l => decide (S1.removedTag.getD (litVar l) .rnone = .decomposed))
            then ext.readdRemovedClauses S1 else S1) with ⟨b, S3⟩
      rw [hu] at hh0
      cases b <;> simp at hh0
    have hh : ∀ e Se, addClauseHelper ext S (backNumberOutsideToOuter S lits) =
        .herr e Se → e = .tooLargeVarOuter := by
      intro e Se hh0
      unfold addClauseHelper at hh0
      rw [if_neg (by simp [hok]), if_neg (by rw [hlen_eq]; exact hlen)] at hh0
      rcases hl : helperLoop ext (backNumberOutsideToOuter S lits) [] S with Se2 | pr
      · rw [hl] at hh0
        injection hh0 with h1 h2
        exact h1.symm
      · rw [hl] at hh0
        exact absurd hh0 (hrest pr.1 pr.2 e Se)
    rcases hcase : addClauseHelper ext S (backNumberOutsideToOuter S lits) with
      ⟨e, Se⟩ | ⟨Se⟩ | ⟨ps, S1⟩
    · have he := hh e Se hcase
      rw [hcase, he] at heq
      simp at heq
    · rw [hcase] at heq
      simp at heq
    · rw [hcase] at heq
      simp at heq

/-- Helper: add_xor_clause_inter raises TooLongClause exactly when the
cleaned XOR has at least 2^28 literals (the source checks a non-strict
inequality on this path), and it carries the unchanged input state. -/
theorem addXorClauseInter_tooLong_char (ext : Ext) (S : SolverState)
    (lits : List Lit) (rhs : Bool) (attachLong addDrat : Bool) :
    (2 ^ 28 ≤ (xorCleanPrefix S lits rhs).1.length →
      addXorClauseInter ext S lits rhs attachLong addDrat = .xerr S) ∧
    (∀ Sf : SolverState, addXorClauseInter ext S lits rhs attachLong addDrat = .xerr Sf →
      2 ^ 28 ≤ (xorCleanPrefix S lits rhs).1.length) := by
  constructor
  · intro hlen
    unfold addXorClauseInter
    rw [if_pos hlen]
  · intro Sf heq
    by_contra hlen
    unfold addXorClauseInter at heq
    rw [if_neg hlen] at heq
    by_cases hne : (xorCleanPrefix S lits rhs).1 ≠ []
    · rw [if_pos hne] at heq
      simp at heq
    · rw [if_neg hne] at heq
      by_cases hr : (xorCleanPrefix S lits rhs).2 = true
      · rw [if_pos hr] at heq
        simp at heq
      · rw [if_neg hr] at heq
        simp at heq

/-- C6 (amended): through the outer clause API (live solver, declared
variables, blocking off) TooLongClause is raised exactly when the literal
count strictly exceeds 2^28 — not at 2^28 itself — and the state carried at
the raise is the unchanged input state; the XOR ingestion path raises
exactly when its cleaned literal count is at least 2^28. -/
theorem tooLongClause_threshold (ext : Ext) (S : SolverState) (lits xlits : List Lit)
    (red xrhs : Bool) (hok : S.ok = true)
    (hvars : ∀ l ∈ lits, litVar l < S.nVarsOutside)
    (hblk : ¬(S.conf.perform_occur_based_simp ∧ S.anythingHasBeenBlocked)) :
    ((2 ^ 28 < lits.length → addClauseOuter ext S lits red = .aerr .tooLongClause S) ∧
     (∀ Sf, addClauseOuter ext S lits red = .aerr .tooLongClause Sf →
       2 ^ 28 < lits.length)) ∧
    ((2 ^ 28 ≤ (xorCleanPrefix S xlits xrhs).1.length →
       addXorClauseInter ext S xlits xrhs true false = .xerr S) ∧
     (∀ Sf, addXorClauseInter ext S xlits xrhs true false = .xerr Sf →
       2 ^ 28 ≤ (xorCleanPrefix S xlits xrhs).1.length)) :=
  ⟨addClauseOuter_tooLong_char ext S lits red hok hvars hblk,
   addXorClauseInter_tooLong_char ext S xlits xrhs true false⟩

/-- Witness for C6 (amended): concrete live state, a short clause and a short
XOR — no error is raised on either path and both characterisations hold. -/
theorem tooLongClause_threshold_witness :
    stateA.ok = true ∧
    ((2 ^ 28 < ([0, 2] : List Lit).length →
       addClauseOuter extId stateA [0, 2] false = .aerr .tooLongClause stateA) ∧
     (∀ Sf, addClauseOuter extId stateA [0, 2] false = .aerr .tooLongClause Sf →
       2 ^ 28 < ([0, 2] : List Lit).length)) ∧
    ((2 ^ 28 ≤ (xorCleanPrefix stateA [0] false).1.length →
       addXorClauseInter extId stateA [0] false true false = .xerr stateA) ∧
     (∀ Sf, addXorClauseInter extId stateA [0] false true false = .xerr Sf →
       2 ^ 28 ≤ (xorCleanPrefix stateA [0] false).1.length)) :=
  ⟨rfl,
   tooLongClause_threshold extId stateA [0, 2] [0] false false rfl
     (by decide) (by decide)⟩

/-- Counterexample to C6 as stated: a clause of exactly 2^28 literals — at
the claimed threshold — does not raise TooLongClause through the outer API,
because the source checks the strict inequality `size > 2^28` on the clause
path. -/
theorem tooLongClause_not_raised_at_exact_bound :
    (List.replicate (2 ^ 28) (0 : Lit)).length = 2 ^ 28 ∧
    ∀ Sf, addClauseOuter extId stateA (List.replicate (2 ^ 28) (0 : Lit)) false ≠
      .aerr .tooLongClause Sf := by
  refine ⟨by rw [List.length_replicate], ?_⟩
  intro Sf heq
  have h := (addClauseOuter_tooLong_char extId stateA
      (List.replicate (2 ^ 28) (0 : Lit)) false rfl
      (by intro l hl; rw [List.eq_of_mem_replicate hl]; decide)
      (by decide)).2 Sf heq
  rw [List.length_replicate] at h
  exact absurd h (lt_irrefl _)

/-- Negating a literal keeps its variable. -/
theorem litVar_xor_one (l : Lit) : litVar (l ^^^ 1) = litVar l := by
  unfold litVar
  apply Nat.eq_of_testBit_eq
  intro i
  rw [← Nat.testBit_succ, ← Nat.testBit_succ, Nat.testBit_xor]
  have h1 : Nat.testBit 1 (i + 1) = false := by simp [Nat.testBit_succ]
  simp [h1]

/-- Negating a literal flips its sign. -/
theorem litSign_xor_one (l : Lit) : litSign (l ^^^ 1) = !litSign l := by
  unfold litSign
  have h := Nat.xor_mod_two_eq (m := l) (n := 1)
  rcases Nat.mod_two_eq_zero_or_one l with h2 | h2 <;> simp [h, Nat.add_mod, h2]

/-- Double ternary negation is the identity. -/
theorem Lbool.neg_neg (b : Lbool) : b.neg.neg = b := by cases b <;> rfl

/-- Value of a negated literal is the negated value. -/
theorem valueLit_xor_one (a : List Lbool) (l : Lit) :
    valueLit a (l ^^^ 1) = (valueLit a l).neg := by
  unfold valueLit
  rw [litVar_xor_one, litSign_xor_one]
  cases h : litSign l <;> simp [Lbool.neg_neg]

/-- Flipping by a conditional bit keeps the variable. -/
theorem litVar_flip (l : Lit) (c : Prop) [Decidable c] :
    litVar (l ^^^ (if c then 1 else 0)) = litVar l := by
  by_cases h : c
  · rw [if_pos h]
    exact litVar_xor_one l
  · rw [if_neg h]
    simp

/-- The variable of the negation of a literal. -/
theorem litVar_litNeg (l : Lit) : litVar (litNeg l) = litVar l := litVar_xor_one l

/-- Reading a list by index over its range reproduces a map over the list. -/
theorem map_range_getD (f : Lit → Nat) (l : List Lit) :
    (List.range l.length).map (fun a => f (l.getD a 0)) = l.map f := by
  apply List.ext_getElem
  · simp
  · intro i h1 h2
    simp [List.getD_eq_getElem?_getD, List.getElem?_eq_getElem (by simpa using h2)]

/-- A combination clause has the length of the cut. -/
theorem xorCombLits_length (lits : List Lit) (i : Nat) :
    (xorCombLits lits i).length = lits.length := by
  simp [xorCombLits]

/-- A combination clause has the variables of the cut, in order. -/
theorem xorCombLits_map_var (lits : List Lit) (i : Nat) :
    (xorCombLits lits i).map litVar = lits.map litVar := by
  unfold xorCombLits
  rw [List.map_map]
  have : (litVar ∘ fun a => lits.getD a 0 ^^^ if (i >>> a) &&& 1 = 1 then 1 else 0) =
      fun a => litVar (lits.getD a 0) := by
    funext a
    simp [Function.comp, litVar_flip]
  rw [this, map_range_getD litVar lits]

/-- Every literal of a combination clause is a literal of the cut or its
negation. -/
theorem xorCombLits_mem (lits : List Lit) (i : Nat) (x : Lit)
    (hx : x ∈ xorCombLits lits i) :
    ∃ l ∈ lits, x = l ∨ x = l ^^^ 1 := by
  unfold xorCombLits at hx
  obtain ⟨a, ha, hax⟩ := List.mem_map.mp hx
  have halt : a < lits.length := List.mem_range.mp ha
  refine ⟨lits.getD a 0, ?_, ?_⟩
  · rw [List.getD_eq_getElem lits 0 halt]
    exact List.getElem_mem halt
  · by_cases hbit : (i >>> a) &&& 1 = 1
    · right
      rw [← hax, if_pos hbit]
    · left
      rw [← hax, if_neg hbit]
      simp

/-- The cleaning scan retains every literal of a clause whose literals are
all unassigned and pairwise on distinct variables. -/
theorem cleanScan_keepAll (assigns : List Lbool) :
    ∀ (xs : List Lit) (p : Option Lit),
      (∀ l ∈ xs, valueLit assigns l = .lundef) →
      (xs.map litVar).Nodup →
      (∀ q, p = some q → litVar q ∉ xs.map litVar) →
      cleanScan assigns xs p = .keep xs := by
  intro xs
  induction xs with
  | nil => intro p _ _ _; rfl
  | cons l ls ih =>
    intro p hu hnd hp
    have hul : valueLit assigns l = .lundef := hu l (List.mem_cons_self l ls)
    have hlv : litVar l ∈ (l :: ls).map litVar := by simp
    unfold cleanScan
    rw [if_neg (by rw [hul]; simp), if_neg ?hnegp, if_pos ?hkeep,
      ih (some l) (fun x hx => hu x (List.mem_cons_of_mem l hx)) (List.Nodup.of_cons hnd)
        ?hployv]
    case hnegp =>
      intro hc
      have := hp (litNeg l) hc.symm
      rw [litVar_litNeg] at this
      exact this hlv
    case hkeep =>
      refine ⟨by rw [hul]; simp, ?_⟩
      intro hc
      exact hp l hc.symm hlv
    case hployv =>
      intro q hq hmem
      injection hq with h
      subst h
      rw [List.map_cons] at hnd
      exact (List.nodup_cons.mp hnd).1 hmem

/-- Sorting and cleaning a clause of unassigned literals on distinct
variables keeps the sorted clause and leaves undef_must_set_vars alone. -/
theorem sortAndClean_keepAll (S : SolverState) (ps : List Lit) (red : Bool)
    (hu : ∀ l ∈ ps, valueLit S.assigns l = .lundef)
    (hnd : (ps.map litVar).Nodup) :
    sortAndCleanClause S ps red = (.keep (sortLits ps), S.undef_must_set_vars) := by
  have hperm : List.Perm (sortLits ps) ps := List.perm_insertionSort _ ps
  have h1 : ∀ l ∈ sortLits ps, valueLit S.assigns l = .lundef :=
    fun l hl => hu l (hperm.mem_iff.mp hl)
  have h2 : ((sortLits ps).map litVar).Nodup := ((hperm.map litVar).nodup_iff).mpr hnd
  unfold sortAndCleanClause
  rw [cleanScan_keepAll S.assigns (sortLits ps) none h1 h2 (by intro q hq; cases hq)]

/-- add_clause_int keeps a clause of unassigned literals on distinct
variables, of length at least three: it allocates the sorted clause and only
bumps the literal counters. -/
theorem addClauseInt_keepAll (ext : Ext) (S : SolverState) (ps : List Lit) (red : Bool)
    (glue : Nat) (attachLong : Bool)
    (hu : ∀ l ∈ ps, valueLit S.assigns l = .lundef)
    (hnd : (ps.map litVar).Nodup)
    (h3 : 3 ≤ ps.length) :
    addClauseInt ext S ps red glue attachLong false =
      (some ⟨sortLits ps, red, glue, 0⟩, sortLits ps,
        attachLongCounters S ⟨sortLits ps, red, glue, 0⟩) := by
  have hlen : 3 ≤ (sortLits ps).length := by
    have heq : (sortLits ps).length = ps.length :=
      List.Perm.length_eq (List.perm_insertionSort _ ps)
    omega
  unfold addClauseInt
  rw [sortAndClean_keepAll S ps red hu hnd]
  rcases hsort : sortLits ps with _ | ⟨a, _ | ⟨b, _ | ⟨c, rest⟩⟩⟩ <;>
    rw [hsort] at hlen <;> try simp at hlen
  rfl

/-- The combination-loop fold of add_xor_clause_inter_cleaned_cut over any
index list, on a live state whose cut literals are unassigned and on
distinct variables: ok, assigns, nVars and the cut log are untouched, the
odd-parity combinations are appended to the generation log, and one
irredundant clause per odd-parity index is appended to the database. -/
theorem cleanedCutFold_spec (ext : Ext) (lits : List Lit)
    (h3 : 3 ≤ lits.length) (hnd : (lits.map litVar).Nodup) :
    ∀ (idxs : List Nat) (S : SolverState), S.ok = true →
      (∀ l ∈ lits, valueLit S.assigns l = .lundef) →
      (idxs.foldl (cleanedCutStep ext lits true false) S).ok = true ∧
      (idxs.foldl (cleanedCutStep ext lits true false) S).assigns = S.assigns ∧
      (idxs.foldl (cleanedCutStep ext lits true false) S).nVars = S.nVars ∧
      (idxs.foldl (cleanedCutStep ext lits true false) S).xorCutsLog = S.xorCutsLog ∧
      (idxs.foldl (cleanedCutStep ext lits true false) S).xorGenLog = S.xorGenLog ++
        (idxs.filter (fun i => numBitsSet i lits.length % 2 = 1)).map (xorCombLits lits) ∧
      (idxs.foldl (cleanedCutStep ext lits true false) S).longIrredCls = S.longIrredCls ++
        (idxs.filter (fun i => numBitsSet i lits.length % 2 = 1)).map
          (fun i => ⟨sortLits (xorCombLits lits i), false, defaultGlue, 0⟩) := by
  intro idxs
  induction idxs with
  | nil =>
    intro S hok hu
    simp [hok]
  | cons i is ih =>
    intro S hok hu
    rw [List.foldl_cons]
    by_cases hpar : numBitsSet i lits.length % 2 = 0
    · have hstep : cleanedCutStep ext lits true false S i = S := by
        unfold cleanedCutStep
        rw [if_pos hpar]
      have hfil : (i :: is).filter (fun j => numBitsSet j lits.length % 2 = 1) =
          is.filter (fun j => numBitsSet j lits.length % 2 = 1) := by
        rw [List.filter_cons]
        simp only [decide_eq_true_eq]
        rw [if_neg (by omega)]
      rw [hstep, hfil]
      exact ih S hok hu
    · have hnl_u : ∀ x ∈ xorCombLits lits i, valueLit S.assigns x = .lundef := by
        intro x hx
        obtain ⟨l, hl, hx2⟩ := xorCombLits_mem lits i x hx
        rcases hx2 with h | h
        · rw [h]
          exact hu l hl
        · rw [h, valueLit_xor_one, hu l hl]
          rfl
      have hnl_nd : ((xorCombLits lits i).map litVar).Nodup := by
        rw [xorCombLits_map_var]
        exact hnd
      have hnl_len : 3 ≤ (xorCombLits lits i).length := by
        rw [xorCombLits_length]
        exact h3
      have hint := addClauseInt_keepAll ext
        {S with xorGenLog := S.xorGenLog ++ [xorCombLits lits i]}
        (xorCombLits lits i) false defaultGlue true hnl_u hnl_nd hnl_len
      have hstep : cleanedCutStep ext lits true false S i =
          {S with xorGenLog := S.xorGenLog ++ [xorCombLits lits i],
                  irredLits := S.irredLits + (sortLits (xorCombLits lits i)).length,
                  longIrredCls := S.longIrredCls ++
                    [⟨sortLits (xorCombLits lits i), false, defaultGlue, 0⟩]} := by
        unfold cleanedCutStep
        rw [if_neg hpar, if_neg (by rw [hok]; simp)]
        simp [hint, attachLongCounters]
      have hfil : (i :: is).filter (fun j => numBitsSet j lits.length % 2 = 1) =
          i :: is.filter (fun j => numBitsSet j lits.length % 2 = 1) := by
        rw [List.filter_cons]
        simp only [decide_eq_true_eq]
        rw [if_pos (by omega)]
      rw [hstep, hfil]
      have hres := ih ({S with xorGenLog := S.xorGenLog ++ [xorCombLits lits i], irredLits := S.irredLits + (sortLits (xorCombLits lits i)).length, longIrredCls := S.longIrredCls ++ [⟨sortLits (xorCombLits lits i), false, defaultGlue, 0⟩]}) hok hu
      refine ⟨hres.1, hres.2.1, hres.2.2.1, hres.2.2.2.1, ?_, ?_⟩
      · rw [hres.2.2.2.2.1]
        simp
      · rw [hres.2.2.2.2.2]
        simp

/-- C1 (amended): for every XOR constraint whose cleaned form has exactly 4
variables and rhs 0 (live state, unassigned literals on distinct variables),
the cutting transformation of add_every_combination_xor allocates NO fresh
BVA variable and produces a single cut, the 4-ary XOR itself, which
add_xor_clause_inter_cleaned_cut expands into its eight odd-parity
4-clauses, all ingested as irredundant standard clauses.  (Fresh chain
variables appear only for XORs of five or more variables.) -/
theorem xor4_cut_no_fresh_var (ext : Ext) (S : SolverState) (lits : List Lit)
    (h4 : lits.length = 4) (hok : S.ok = true)
    (hnd : (lits.map litVar).Nodup)
    (hu : ∀ l ∈ lits, valueLit S.assigns l = .lundef) :
    (addEveryCombinationXor ext S lits true false).nVars = S.nVars ∧
    (addEveryCombinationXor ext S lits true false).xorCutsLog = S.xorCutsLog ++ [lits] ∧
    (addEveryCombinationXor ext S lits true false).xorGenLog =
      S.xorGenLog ++ oddCombs lits ∧
    (addEveryCombinationXor ext S lits true false).longIrredCls.length =
      S.longIrredCls.length + 8 ∧
    (oddCombs lits).length = 8 ∧
    (∀ c ∈ oddCombs lits, c.length = 4) := by
  rcases lits with _ | ⟨a, _ | ⟨b, _ | ⟨c, _ | ⟨d, rest⟩⟩⟩⟩
  · simp at h4
  · simp at h4
  · simp at h4
  · simp at h4
  have hrest : rest = [] := List.length_eq_zero.mp (by simpa using h4)
  subst hrest
  have hmain : addEveryCombinationXor ext S [a, b, c, d] true false =
      addXorClauseInterCleanedCut ext
        {S with xorCutsLog := S.xorCutsLog ++ [[a, b, c, d]]} [a, b, c, d] true false := by
    show addEveryCombinationXorGo ext [a, b, c, d] true false 4 0 none S = _
    unfold addEveryCombinationXorGo
    norm_num [cutChunk]
    unfold addEveryCombinationXorGo
    norm_num [ite_self]
  have hcc : addXorClauseInterCleanedCut ext
      {S with xorCutsLog := S.xorCutsLog ++ [[a, b, c, d]]} [a, b, c, d] true false =
      (List.range (2 ^ (4 : Nat))).foldl
        (cleanedCutStep ext [a, b, c, d] true false)
        {S with xorCutsLog := S.xorCutsLog ++ [[a, b, c, d]]} := rfl
  have hfold := cleanedCutFold_spec ext [a, b, c, d] (by simp) hnd
    (List.range (2 ^ (4 : Nat)))
    {S with xorCutsLog := S.xorCutsLog ++ [[a, b, c, d]]} hok hu
  have h8 : ((List.range (2 ^ (4 : Nat))).filter
      (fun i => numBitsSet i 4 % 2 = 1)).length = 8 := by decide
  have hlen4 : List.length [a, b, c, d] = 4 := rfl
  rw [hmain, hcc]
  refine ⟨?_, ?_, ?_, ?_, ?_, ?_⟩
  · rw [hfold.2.2.1]
  · rw [hfold.2.2.2.1]
  · rw [hfold.2.2.2.2.1]
    rfl
  · rw [hfold.2.2.2.2.2]
    rw [List.length_append, List.length_map]
    simp only [hlen4]
    rw [h8]
  · show (oddCombs [a, b, c, d]).length = 8
    unfold oddCombs
    rw [List.length_map]
    simp only [hlen4]
    exact h8
  · intro cm hcm
    unfold oddCombs at hcm
    obtain ⟨i, hi, hcme⟩ := List.mem_map.mp hcm
    rw [← hcme, xorCombLits_length]
    rfl

/-- Witness for C1 (amended): the concrete cleaned XOR x1+x2+x3+x4 = 0,
literals [0, 2, 4, 6] over the live four-variable state. -/
theorem xor4_cut_no_fresh_var_witness :
    ([0, 2, 4, 6] : List Lit).length = 4 ∧ stateA.ok = true ∧
    ((addEveryCombinationXor extId stateA [0, 2, 4, 6] true false).nVars = stateA.nVars ∧
     (addEveryCombinationXor extId stateA [0, 2, 4, 6] true false).xorCutsLog =
       stateA.xorCutsLog ++ [[0, 2, 4, 6]] ∧
     (addEveryCombinationXor extId stateA [0, 2, 4, 6] true false).xorGenLog =
       stateA.xorGenLog ++ oddCombs [0, 2, 4, 6] ∧
     (addEveryCombinationXor extId stateA [0, 2, 4, 6] true false).longIrredCls.length =
       stateA.longIrredCls.length + 8 ∧
     (oddCombs [0, 2, 4, 6]).length = 8 ∧
     (∀ c ∈ oddCombs [0, 2, 4, 6], c.length = 4)) :=
  ⟨rfl, rfl,
   xor4_cut_no_fresh_var extId stateA [0, 2, 4, 6] rfl rfl (by decide) (by decide)⟩

/-- Counterexample to C1 as stated: on the cleaned 4-variable XOR
x1+x2+x3+x4 = 0 (literals [0, 2, 4, 6] in a live four-variable state) the
cutting transformation allocates no fresh BVA variable — nVars stays 4,
where the claim demands exactly one fresh variable — and emits exactly one
cut, the 4-ary XOR itself, where the claim demands the two ternary XORs
x1+x2+y and y+x3+x4. -/
theorem xor4_two_ternary_cuts_refuted :
    (addEveryCombinationXor extId stateA [0, 2, 4, 6] true false).nVars = 4 ∧
    stateA.nVars = 4 ∧
    (addEveryCombinationXor extId stateA [0, 2, 4, 6] true false).xorCutsLog =
      [[0, 2, 4, 6]] ∧
    (addEveryCombinationXor extId stateA [0, 2, 4, 6] true false).xorCutsLog.length ≠ 2 := by
  refine ⟨by decide, by decide, by decide, by decide⟩

/-- C7: the inprocess scheduler never executes another strategy token once a
budget condition holds: at any point between tokens (any remaining token
list, any pending occ buffer), when the conflict count has reached maxConfl,
CPU time exceeds maxTime, the interrupt flag is asserted, no variables
remain, or ok is false, the loop returns the current value of ok
immediately, with the state untouched and no dispatch executed — for every
dispatch behaviour. -/
theorem inprocess_budget_stop_immediate (ex : TokenExec) (S : SolverState)
    (ts : List String) (occBuf : String)
    (h : u64cast S.conf.maxConfl ≤ S.sumConflicts ∨ S.conf.maxTime < S.cpuTimeNow ∨
      S.mustInterrupt = true ∨ S.nVars = 0 ∨ S.ok = false) :
    inprocessLoop ex ts occBuf S = (S.ok, S, []) := by
  have hstop : inprocessBudgetStop S = true := by
    unfold inprocessBudgetStop
    rcases h with h | h | h | h | h <;> simp [h]
  cases ts with
  | nil => rfl
  | cons t ts2 =>
    unfold inprocessLoop
    rw [if_pos hstop]

/-- Witness for C7: a concrete interrupted state and a concrete strategy
token list. -/
theorem inprocess_budget_stop_immediate_witness :
    ({stateA with mustInterrupt := true} : SolverState).mustInterrupt = true ∧
      inprocessLoop extTokensId ["distill-cls", "occ-bve"] ""
          {stateA with mustInterrupt := true} =
        (({stateA with mustInterrupt := true} : SolverState).ok,
          {stateA with mustInterrupt := true}, []) :=
  ⟨rfl,
   inprocess_budget_stop_immediate extTokensId {stateA with mustInterrupt := true}
     ["distill-cls", "occ-bve"] "" (Or.inr (Or.inr (Or.inl rfl)))⟩

/-- Helper: every Searcher::solve call logged by the driver loop received
the budget computed by calc_num_confl_to_do_this_iter at the state of the
call, and that budget was strictly positive (the loop breaks before
searching otherwise). -/
theorem iterateLoop_budget_invariant (ex : DriverExt) (backup : Nat) :
    ∀ (fuel iteration : Nat) (status : Lbool) (S : SolverState),
      ∀ e ∈ (iterateLoop ex backup fuel iteration status S).2.2,
        e.budget = calc_num_confl_to_do_this_iter e.st.conf e.st.sumConflicts e.iter ∧
        0 < e.budget := by
  intro fuel
  induction fuel with
  | zero =>
    intro it status S e he
    simp [iterateLoop] at he
  | succ n ih =>
    intro it status S e he
    simp only [iterateLoop] at he
    split at he
    · split at he
      · split at he
        · simp at he
        · rename_i hnum
          split at he
          · rw [List.mem_singleton] at he
            subst he
            exact ⟨rfl, not_le.mp hnum⟩
          · split at he
            · rw [List.mem_singleton] at he
              subst he
              exact ⟨rfl, not_le.mp hnum⟩
            · simp only [List.mem_cons] at he
              rcases he with he | he
              · subst he
                exact ⟨rfl, not_le.mp hnum⟩
              · exact ih (it + 1) _ _ e he
      · split at he
        · simp at he
        · rename_i hnum
          split at he
          · rw [List.mem_singleton] at he
            subst he
            exact ⟨rfl, not_le.mp hnum⟩
          · split at he
            · rw [List.mem_singleton] at he
              subst he
              exact ⟨rfl, not_le.mp hnum⟩
            · simp only [List.mem_cons] at he
              rcases he with he | he
              · subst he
                exact ⟨rfl, not_le.mp hnum⟩
              · exact ih (it + 1) _ _ e he
    · simp at he

/-- C9 (amended): in every iteration of the search driver loop, the conflict
budget handed to Searcher::solve equals
min(base · min(growth^iteration, growth_max), maxConfl − conflicts so far)
— the growth multiplier is capped at num_conflicts_of_search_inc_max, and a
never_stop_search configuration overrides the first operand with a fixed 500
million — and the loop terminates without searching when this quantity is
not positive: every budget actually handed over is strictly positive. -/
theorem driver_budget_capped_formula (ex : DriverExt) (fuel : Nat) (S : SolverState) :
    ∀ e ∈ (iterate_until_solved ex fuel S).2.2,
      e.budget = min (if e.st.conf.never_stop_search then (500 * 1000 * 1000 : Int)
          else truncQ ((e.st.conf.num_conflicts_of_search : ℚ) *
            min (e.st.conf.num_conflicts_of_search_inc ^ e.iter)
              e.st.conf.num_conflicts_of_search_inc_max))
        (e.st.conf.maxConfl - (e.st.sumConflicts : Int)) ∧
      0 < e.budget := by
  intro e he
  have h := iterateLoop_budget_invariant ex S.conf.burst_search_len fuel 0 .lundef
    {S with conf := {S.conf with burst_search_len := 0}} e he
  exact ⟨by rw [h.1]; rfl, h.2⟩

/-- Witness for C9 (amended): a concrete driver run whose single logged
search call received budget 200 = min(100 · min(2^1, 4), 1000 − 0). -/
theorem driver_budget_capped_formula_witness :
    (⟨{stateA with conf := {confA with burst_search_len := 0}}, 1, 200⟩ : DriverLogEntry) ∈
      (iterate_until_solved extDriverW 1 stateA).2.2 ∧
    ((⟨{stateA with conf := {confA with burst_search_len := 0}}, 1, 200⟩ :
        DriverLogEntry).budget =
      min (if ({stateA with conf := {confA with burst_search_len := 0}} :
            SolverState).conf.never_stop_search then (500 * 1000 * 1000 : Int)
          else truncQ ((({stateA with conf := {confA with burst_search_len := 0}} :
              SolverState).conf.num_conflicts_of_search : ℚ) *
            min (({stateA with conf := {confA with burst_search_len := 0}} :
                SolverState).conf.num_conflicts_of_search_inc ^ (1 : Nat))
              (({stateA with conf := {confA with burst_search_len := 0}} :
                SolverState).conf.num_conflicts_of_search_inc_max)))
        (({stateA with conf := {confA with burst_search_len := 0}} :
            SolverState).conf.maxConfl -
          ((({stateA with conf := {confA with burst_search_len := 0}} :
            SolverState).sumConflicts : Int))) ∧
      (0 : Int) < 200) :=
  ⟨by
     norm_num [iterate_until_solved, iterateLoop, extDriverW, stateA, confA,
       calc_num_confl_to_do_this_iter, truncQ, u64cast, min_def],
   driver_budget_capped_formula extDriverW 1 stateA
     ⟨{stateA with conf := {confA with burst_search_len := 0}}, 1, 200⟩
     (by
       norm_num [iterate_until_solved, iterateLoop, extDriverW, stateA, confA,
         calc_num_confl_to_do_this_iter, truncQ, u64cast, min_def])⟩

/-- Counterexample to C9 as stated: a concrete driver run in which the third
search call is handed budget 400 — the growth multiplier 2^3 = 8 is capped
at num_conflicts_of_search_inc_max = 4 — while the claimed formula
min(base · growth^iteration, maxConfl − conflicts) gives 800. -/
theorem driver_budget_claim_refuted :
    (⟨stateA, 3, 400⟩ : DriverLogEntry) ∈
      (iterate_until_solved extDriverU 3 stateA).2.2 ∧
    specNumConflFormula stateA.conf stateA.sumConflicts 3 = 800 ∧
    ((400 : Int) ≠ specNumConflFormula stateA.conf stateA.sumConflicts 3) := by
  refine ⟨?_, ?_, ?_⟩
  · norm_num [iterate_until_solved, iterateLoop, extDriverU, stateA, confA,
      calc_num_confl_to_do_this_iter, truncQ, u64cast, min_def]
  · norm_num [specNumConflFormula, stateA, confA, truncQ, min_def]
  · norm_num [specNumConflFormula, stateA, confA, truncQ, min_def]

/-- C10: every call to solve(), for every verdict it returns and every
collaborator behaviour, overwrites conf.maxConfl and conf.maxTime with
their maximum representable values before returning, so a caller-set budget
applies to at most one solve() call. -/
theorem solve_resets_budgets (sx : SolveExt) (dx : DriverExt) (fuel : Nat)
    (S : SolverState) (st : Lbool) (Sf : SolverState)
    (h : solve sx dx fuel S = some (st, Sf)) :
    Sf.conf.maxConfl = longMax ∧ Sf.conf.maxTime = dblMax := by
  unfold solve at h
  split at h
  · simp at h
  · simp only [Option.some.injEq, Prod.mk.injEq] at h
    rw [← h.2]
    exact ⟨rfl, rfl⟩

/-- Witness for C10: a concrete solve run on the live four-variable state
with identity collaborators. -/
theorem solve_resets_budgets_witness :
    solve extSolveW extDriverW 0 stateA = some solveRunW ∧
    (solveRunW.2.conf.maxConfl = longMax ∧ solveRunW.2.conf.maxTime = dblMax) :=
  ⟨rfl, solve_resets_budgets extSolveW extDriverW 0 stateA solveRunW.1 solveRunW.2 rfl⟩

/-- Setting one list entry leaves the other entries unchanged. -/
theorem getD_set_ne (l : List Nat) (i j x : Nat) (h : i ≠ j) :
    (l.set i x).getD j 0 = l.getD j 0 := by
  simp [List.getD_eq_getElem?_getD, List.getElem?_set_ne h]

/-- Setting an in-bounds entry makes getD read it back. -/
theorem getD_set_self (l : List Nat) (i x : Nat) (h : i < l.length) :
    (l.set i x).getD i 0 = x := by
  simp [List.getD_eq_getElem?_getD, List.getElem?_set_self, h]

/-- Reading a mapped range by index. -/
theorem getD_map_range {α : Type} (f : Nat → α) (n i : Nat) (d : α) (h : i < n) :
    ((List.range n).map f).getD i d = f i := by
  rw [List.getD_eq_getElem _ d (by simpa using h)]
  simp

/-- Closed forms for the components renumLoop1 appends. -/
theorem renumLoop1_parts (act : Nat → Bool) :
    ∀ (is : List Nat) (o2i i2o useless : List Nat) (numEff : Nat),
      (renumLoop1 act is (o2i, i2o, useless, numEff)).2.1 = i2o ++ is.filter act ∧
      (renumLoop1 act is (o2i, i2o, useless, numEff)).2.2.1 =
        useless ++ is.filter (fun i => !act i) ∧
      (renumLoop1 act is (o2i, i2o, useless, numEff)).2.2.2 =
        numEff + (is.filter act).length ∧
      (renumLoop1 act is (o2i, i2o, useless, numEff)).1.length = o2i.length := by
  intro is
  induction is with
  | nil =>
    intro o2i i2o useless numEff
    simp [renumLoop1]
  | cons i is2 ih =>
    intro o2i i2o useless numEff
    unfold renumLoop1
    by_cases hi : act i
    · rw [if_pos hi]
      have h := ih (o2i.set i i2o.length) (i2o ++ [i]) useless (numEff + 1)
      refine ⟨?_, ?_, ?_, ?_⟩
      · rw [h.1, List.filter_cons]
        simp [hi]
      · rw [h.2.1, List.filter_cons]
        simp [hi]
      · rw [h.2.2.1, List.filter_cons]
        simp [hi]
        omega
      · rw [h.2.2.2, List.length_set]
    · rw [if_neg hi]
      have h := ih o2i i2o (useless ++ [i]) numEff
      refine ⟨?_, ?_, ?_, ?_⟩
      · rw [h.1, List.filter_cons]
        simp [hi]
      · rw [h.2.1, List.filter_cons]
        simp [hi]
      · rw [h.2.2.1, List.filter_cons]
        simp [hi]
      · exact h.2.2.2

/-- renumLoop1 leaves outerToInter entries outside its input untouched. -/
theorem renumLoop1_o2i_frozen (act : Nat → Bool) :
    ∀ (is : List Nat) (o2i i2o useless : List Nat) (numEff : Nat) (j : Nat), j ∉ is →
      (renumLoop1 act is (o2i, i2o, useless, numEff)).1.getD j 0 = o2i.getD j 0 := by
  intro is
  induction is with
  | nil =>
    intro o2i i2o useless numEff j hj
    rfl
  | cons i is2 ih =>
    intro o2i i2o useless numEff j hj
    have hji : i ≠ j := fun hc => hj (hc ▸ List.mem_cons_self i is2)
    have hjis2 : j ∉ is2 := fun hc => hj (List.mem_cons_of_mem i hc)
    unfold renumLoop1
    by_cases hi : act i
    · rw [if_pos hi, ih _ _ _ _ j hjis2, getD_set_ne _ _ _ _ hji]
    · rw [if_neg hi, ih _ _ _ _ j hjis2]

/-- renumLoop1 writes every active variable of its duplicate-free input
below the final number of filled inter slots. -/
theorem renumLoop1_o2i_bound (act : Nat → Bool) :
    ∀ (is : List Nat), is.Nodup →
      ∀ (o2i i2o useless : List Nat) (numEff : Nat),
        (∀ j ∈ is, j < o2i.length) →
        ∀ j ∈ is, act j = true →
          (renumLoop1 act is (o2i, i2o, useless, numEff)).1.getD j 0 <
            (renumLoop1 act is (o2i, i2o, useless, numEff)).2.1.length := by
  intro is
  induction is with
  | nil =>
    intro _ o2i i2o useless numEff _ j hj
    exact absurd hj (List.not_mem_nil j)
  | cons i is2 ih =>
    intro hnd o2i i2o useless numEff hlen j hj hact
    have hnd2 : is2.Nodup := (List.nodup_cons.mp hnd).2
    have hinot : i ∉ is2 := (List.nodup_cons.mp hnd).1
    unfold renumLoop1
    rcases List.mem_cons.mp hj with rfl | hj2
    · rw [if_pos hact]
      rw [renumLoop1_o2i_frozen act is2 _ _ _ _ j hinot,
        getD_set_self o2i j i2o.length (hlen j (List.mem_cons_self j is2))]
      rw [(renumLoop1_parts act is2 _ _ _ _).1]
      simp
    · by_cases hi : act i
      · rw [if_pos hi]
        exact ih hnd2 _ _ _ _
          (fun k hk => by rw [List.length_set]; exact hlen k (List.mem_cons_of_mem i hk))
          j hj2 hact
      · rw [if_neg hi]
        exact ih hnd2 _ _ _ _
          (fun k hk => hlen k (List.mem_cons_of_mem i hk)) j hj2 hact

/-- renumLoop2 appends its input to interToOuter and touches outerToInter
only at its input entries. -/
theorem renumLoop2_parts :
    ∀ (us o2i i2o : List Nat),
      (renumLoop2 us (o2i, i2o)).2 = i2o ++ us ∧
      (∀ j, j ∉ us → (renumLoop2 us (o2i, i2o)).1.getD j 0 = o2i.getD j 0) := by
  intro us
  induction us with
  | nil =>
    intro o2i i2o
    exact ⟨by simp [renumLoop2], fun j _ => rfl⟩
  | cons u us2 ih =>
    intro o2i i2o
    unfold renumLoop2
    constructor
    · rw [(ih _ _).1]
      simp
    · intro j hj
      have hju : u ≠ j := fun hc => hj (hc ▸ List.mem_cons_self u us2)
      have hjus2 : j ∉ us2 := fun hc => hj (List.mem_cons_of_mem u hc)
      rw [(ih _ _).2 j hjus2, getD_set_ne _ _ _ _ hju]

/-- renumLoop3 appends its input to interToOuter and touches outerToInter
only at its input entries. -/
theorem renumLoop3_parts :
    ∀ (ts o2i i2o : List Nat),
      (renumLoop3 ts (o2i, i2o)).2 = i2o ++ ts ∧
      (∀ j, j ∉ ts → (renumLoop3 ts (o2i, i2o)).1.getD j 0 = o2i.getD j 0) := by
  intro ts
  induction ts with
  | nil =>
    intro o2i i2o
    exact ⟨by simp [renumLoop3], fun j _ => rfl⟩
  | cons t ts2 ih =>
    intro o2i i2o
    unfold renumLoop3
    constructor
    · rw [(ih _ _).1]
      simp
    · intro j hj
      have hjt : t ≠ j := fun hc => hj (hc ▸ List.mem_cons_self t ts2)
      have hjts2 : j ∉ ts2 := fun hc => hj (List.mem_cons_of_mem t hc)
      rw [(ih _ _).2 j hjts2, getD_set_ne _ _ _ _ hjt]

/-- The test_renumbering fold on a boundary profile: all variables before k
active, all from k on useless. -/
theorem test_fold_boundary (values : List Lbool) (removed : List RemovedT) (k : Nat) :
    ∀ (n : Nat), (∀ i, i < n → (renumberUseless values removed i = false ↔ i < k)) →
      (List.range n).foldl (testRenumStep values removed) (false, false) =
        (decide (k < n), false) := by
  intro n
  induction n with
  | zero =>
    intro _
    simp
  | succ m ih =>
    intro h
    rw [List.range_succ, List.foldl_append, ih (fun i hi => h i (by omega))]
    by_cases hm : m < k
    · have hu : renumberUseless values removed m = false := (h m (by omega)).mpr hm
      have h1 : ¬(k < m) := by omega
      have h2 : ¬(k < m + 1) := by omega
      simp [testRenumStep, hu, h1, h2]
    · have hu : renumberUseless values removed m = true := by
        rcases Bool.eq_false_or_eq_true (renumberUseless values removed m) with hv | hv
        · exact hv
        · exact absurd ((h m (by omega)).mp hv) hm
      have h2 : k < m + 1 := by omega
      simp [testRenumStep, hu, h2]

/-- test_renumbering passes on any boundary profile. -/
theorem test_renumbering_of_boundary (values : List Lbool) (removed : List RemovedT)
    (nVars k : Nat)
    (h : ∀ i, i < nVars → (renumberUseless values removed i = false ↔ i < k)) :
    test_renumbering values removed nVars = true := by
  unfold test_renumbering
  rw [test_fold_boundary values removed k nVars h]
  rfl

/-- Permuting the per-variable data commutes with the uselessness test. -/
theorem renumberUseless_perm (values : List Lbool) (removed : List RemovedT)
    (i2o : List Nat) (nVars i : Nat) (h : i < nVars) :
    renumberUseless (renumberedValues values i2o nVars)
      (renumberedRemoved removed i2o nVars) i =
    renumberUseless values removed (i2o.getD i i) := by
  unfold renumberUseless renumberedValues renumberedRemoved valueVar
  rw [getD_map_range _ _ _ _ h, getD_map_range _ _ _ _ h]

/-- C8: after calculate_interToOuter_and_outerToInter computes the
renumbering, the active variables occupy a dense prefix of the inter
namespace: the inter-to-outer map lists the active variables first in outer
order, then the assigned/removed ones, then the identity up to nVarsOuter;
numEffectiveVars is the number of active variables; no active variable gets
an inter index at or above numEffectiveVars; and the source's own
test_renumbering assertion passes on the renumbered variable data. -/
theorem renumber_active_dense_prefix (values : List Lbool) (removed : List RemovedT)
    (nVars nVarsOuter : Nat) (h : nVars ≤ nVarsOuter) :
    (calculate_interToOuter_and_outerToInter values removed nVars nVarsOuter).2.1 =
      (List.range nVars).filter (fun i => !(renumberUseless values removed i)) ++
      ((List.range nVars).filter (fun i => renumberUseless values removed i) ++
      List.range' nVars (nVarsOuter - nVars)) ∧
    (calculate_interToOuter_and_outerToInter values removed nVars nVarsOuter).2.2 =
      ((List.range nVars).filter (fun i => !(renumberUseless values removed i))).length ∧
    (∀ j, j < nVars → renumberUseless values removed j = false →
      (calculate_interToOuter_and_outerToInter values removed nVars nVarsOuter).1.getD j 0 <
        (calculate_interToOuter_and_outerToInter values removed nVars nVarsOuter).2.2) ∧
    test_renumbering
      (renumberedValues values
        (calculate_interToOuter_and_outerToInter values removed nVars nVarsOuter).2.1 nVars)
      (renumberedRemoved removed
        (calculate_interToOuter_and_outerToInter values removed nVars nVarsOuter).2.1 nVars)
      nVars = true := by
  have hr1 := renumLoop1_parts (fun i => !(renumberUseless values removed i))
    (List.range nVars) (List.replicate nVarsOuter 0) [] [] 0
  have h3f : ∀ (ts : List Nat) (p : List Nat × List Nat) (j : Nat), j ∉ ts →
      (renumLoop3 ts p).1.getD j 0 = p.1.getD j 0 :=
    fun ts p j hj => (renumLoop3_parts ts p.1 p.2).2 j hj
  have h3s : ∀ (ts : List Nat) (p : List Nat × List Nat),
      (renumLoop3 ts p).2 = p.2 ++ ts :=
    fun ts p => (renumLoop3_parts ts p.1 p.2).1
  have h2f : ∀ (us : List Nat) (p : List Nat × List Nat) (j : Nat), j ∉ us →
      (renumLoop2 us p).1.getD j 0 = p.1.getD j 0 :=
    fun us p j hj => (renumLoop2_parts us p.1 p.2).2 j hj
  have h2s : ∀ (us : List Nat) (p : List Nat × List Nat),
      (renumLoop2 us p).2 = p.2 ++ us :=
    fun us p => (renumLoop2_parts us p.1 p.2).1
  have hnotnot : ∀ xs : List Nat,
      xs.filter (fun i => !!(renumberUseless values removed i)) =
      xs.filter (fun i => renumberUseless values removed i) := by
    intro xs
    apply List.filter_congr
    intro i _
    simp
  have hcalc21 : (calculate_interToOuter_and_outerToInter values removed nVars
      nVarsOuter).2.1 =
      (List.range nVars).filter (fun i => !(renumberUseless values removed i)) ++
      ((List.range nVars).filter (fun i => renumberUseless values removed i) ++
      List.range' nVars (nVarsOuter - nVars)) := by
    simp only [calculate_interToOuter_and_outerToInter]
    rw [h3s, h2s, hr1.1, hr1.2.1, hnotnot]
    simp
  have hcalc22 : (calculate_interToOuter_and_outerToInter values removed nVars
      nVarsOuter).2.2 =
      ((List.range nVars).filter (fun i => !(renumberUseless values removed i))).length := by
    simp only [calculate_interToOuter_and_outerToInter]
    rw [hr1.2.2.1]
    simp
  have hlenAU : ((List.range nVars).filter
        (fun i => !(renumberUseless values removed i))).length +
      ((List.range nVars).filter (fun i => renumberUseless values removed i)).length =
      nVars := by
    have hp := List.filter_append_perm (fun i => !(renumberUseless values removed i))
      (List.range nVars)
    have := hp.length_eq
    rw [List.length_append, hnotnot] at this
    simpa using this
  refine ⟨hcalc21, hcalc22, ?_, ?_⟩
  · intro j hj hjact
    have hjT : j ∉ List.range' nVars (nVarsOuter - nVars) := by
      intro hc
      have := List.mem_range'.mp hc
      omega
    have hjU : j ∉ (renumLoop1 (fun i => !(renumberUseless values removed i))
        (List.range nVars) (List.replicate nVarsOuter 0, [], [], 0)).2.2.1 := by
      rw [hr1.2.1]
      intro hc
      rw [List.nil_append] at hc
      have := (List.mem_filter.mp hc).2
      simp [hjact] at this
    have hbound := renumLoop1_o2i_bound (fun i => !(renumberUseless values removed i))
      (List.range nVars) (List.nodup_range nVars)
      (List.replicate nVarsOuter 0) [] [] 0
      (fun k hk => by
        rw [List.length_replicate]
        have := List.mem_range.mp hk
        omega)
      j (List.mem_range.mpr hj) (by simp [hjact])
    rw [hcalc22]
    simp only [calculate_interToOuter_and_outerToInter]
    rw [h3f _ _ j hjT, h2f _ _ j hjU]
    rw [hr1.1, List.nil_append] at hbound
    simpa using hbound
  · apply test_renumbering_of_boundary _ _ nVars
      ((List.range nVars).filter (fun i => !(renumberUseless values removed i))).length
    intro i hi
    rw [renumberUseless_perm values removed _ nVars i hi, hcalc21]
    by_cases hiA : i < ((List.range nVars).filter
        (fun i => !(renumberUseless values removed i))).length
    · rw [List.getD_append _ _ _ _ hiA,
        List.getD_eq_getElem _ _ hiA]
      have hmem := List.getElem_mem hiA
      have := (List.mem_filter.mp hmem).2
      simp only [Bool.not_eq_true', decide_eq_true_eq] at this
      constructor
      · intro _
        exact hiA
      · intro _
        simpa using this
    · rw [List.getD_append_right _ _ _ _ (by omega)]
      have hiU : i - ((List.range nVars).filter
          (fun i => !(renumberUseless values removed i))).length <
          ((List.range nVars).filter
            (fun i => renumberUseless values removed i)).length := by
        omega
      rw [List.getD_append _ _ _ _ hiU, List.getD_eq_getElem _ _ hiU]
      have hmem := List.getElem_mem hiU
      have := (List.mem_filter.mp hmem).2
      constructor
      · intro hfalse
        simp [this] at hfalse
      · intro hc
        exact absurd hc hiA

/-- Witness: on a 3-variable instance with variable 1 assigned and variable 2
eliminated, the computed renumbering lists active variables 0 and 2 first,
counts 2 effective variables, maps the active variables below that count,
and passes test_renumbering. -/
theorem renumber_active_dense_prefix_witness :
    (3 : Nat) ≤ 4 ∧
    ((calculate_interToOuter_and_outerToInter [.lundef, .ltrue, .lundef]
        [.rnone, .rnone, .elimed] 3 4).2.1 =
      (List.range 3).filter
        (fun i => !(renumberUseless [.lundef, .ltrue, .lundef]
          [.rnone, .rnone, .elimed] i)) ++
      ((List.range 3).filter
        (fun i => renumberUseless [.lundef, .ltrue, .lundef]
          [.rnone, .rnone, .elimed] i) ++
      List.range' 3 (4 - 3)) ∧
    (calculate_interToOuter_and_outerToInter [.lundef, .ltrue, .lundef]
        [.rnone, .rnone, .elimed] 3 4).2.2 =
      ((List.range 3).filter
        (fun i => !(renumberUseless [.lundef, .ltrue, .lundef]
          [.rnone, .rnone, .elimed] i))).length ∧
    (∀ j, j < 3 → renumberUseless [.lundef, .ltrue, .lundef]
        [.rnone, .rnone, .elimed] j = false →
      (calculate_interToOuter_and_outerToInter [.lundef, .ltrue, .lundef]
        [.rnone, .rnone, .elimed] 3 4).1.getD j 0 <
        (calculate_interToOuter_and_outerToInter [.lundef, .ltrue, .lundef]
          [.rnone, .rnone, .elimed] 3 4).2.2) ∧
    test_renumbering
      (renumberedValues [.lundef, .ltrue, .lundef]
        (calculate_interToOuter_and_outerToInter [.lundef, .ltrue, .lundef]
          [.rnone, .rnone, .elimed] 3 4).2.1 3)
      (renumberedRemoved [.rnone, .rnone, .elimed]
        (calculate_interToOuter_and_outerToInter [.lundef, .ltrue, .lundef]
          [.rnone, .rnone, .elimed] 3 4).2.1 3)
      3 = true) :=
  ⟨by decide, renumber_active_dense_prefix [.lundef, .ltrue, .lundef]
    [.rnone, .rnone, .elimed] 3 4 (by decide)⟩

/-- getD after set at a different index, for any element type. -/
theorem getD_set_ne' {α : Type} (l : List α) (i j : Nat) (x d : α) (h : i ≠ j) :
    (l.set i x).getD j d = l.getD j d := by
  simp [List.getD_eq_getElem?_getD, List.getElem?_set_ne h]

/-- getD after an in-bounds set at the same index, for any element type. -/
theorem getD_set_lt {α : Type} (l : List α) (i : Nat) (x d : α)
    (h : i < l.length) : (l.set i x).getD i d = x := by
  simp [List.getD_eq_getElem?_getD, List.getElem?_set_self, h]

/-- A true getD read is necessarily in bounds. -/
theorem getD_true_lt_length (bs : List Bool) (i : Nat)
    (h : bs.getD i false = true) : i < bs.length := by
  by_contra hc
  rw [List.getD_eq_default _ _ (by omega)] at h
  cases h

/-- getD of a replicate at its own element. -/
theorem getD_replicate_self {α : Type} (a : α) :
    ∀ (n k : Nat), (List.replicate n a).getD k a = a := by
  intro n
  induction n with
  | zero => intro k; rfl
  | succ m ih =>
    intro k
    cases k with
    | zero => rfl
    | succ k2 => exact ih k2

/-- Setting a flag to false can only lower the candidate set. -/
theorem canLe_set_false (a : List Bool) (i : Nat) : canLe (a.set i false) a := by
  intro j hj
  by_cases hij : i = j
  · subst hij
    by_cases hi : i < a.length
    · rw [getD_set_lt _ _ _ _ hi] at hj
      cases hj
    · rw [List.set_eq_of_length_le (by omega)] at hj
      exact hj
  · rw [getD_set_ne' _ _ _ _ _ hij] at hj
    exact hj

/-- canLe is reflexive. -/
theorem canLe_refl (a : List Bool) : canLe a a := fun _ h => h

/-- canLe is transitive. -/
theorem canLe_trans {a b c : List Bool} (h1 : canLe a b) (h2 : canLe b c) :
    canLe a c := fun i h => h2 i (h1 i h)

/-- Clause safety survives shrinking the candidate set. -/
theorem clauseSafe_mono {model : List Lbool} {a b : List Bool} {c : List Lit}
    (h : canLe a b) (hs : clauseSafe model b c) : clauseSafe model a c := by
  obtain ⟨l, hl, hv, hc⟩ := hs
  refine ⟨l, hl, hv, ?_⟩
  by_contra hcon
  have := h (litVar l) (by
    cases hab : a.getD (litVar l) false
    · exact absurd hab hcon
    · rfl)
  rw [this] at hc
  cases hc

/-- Safety of a binary clause is symmetric in its two literals. -/
theorem clauseSafe_pair_symm {model : List Lbool} {can : List Bool} {a b : Lit}
    (h : clauseSafe model can [a, b]) : clauseSafe model can [b, a] := by
  obtain ⟨l, hl, hp⟩ := h
  rcases List.mem_pair.mp hl with rfl | rfl
  · exact ⟨l, by simp, hp⟩
  · exact ⟨l, by simp, hp⟩

/-- Clearing a set flag lowers countTrue by exactly one. -/
theorem countTrue_set_false : ∀ (bs : List Bool) (i : Nat), i < bs.length →
    bs.getD i false = true → countTrue (bs.set i false) + 1 = countTrue bs := by
  intro bs
  induction bs with
  | nil => intro i hi; simp at hi
  | cons b bs2 ih =>
    intro i hi hb
    cases i with
    | zero =>
      simp only [List.getD_cons_zero] at hb
      subst hb
      simp [countTrue]
      omega
    | succ i2 =>
      simp only [List.getD_cons_succ] at hb
      have := ih i2 (by simpa using hi) hb
      simp only [List.set_cons_succ, countTrue]
      omega

/-- A zero countTrue means every flag reads false. -/
theorem countTrue_eq_zero_all_false : ∀ (bs : List Bool), countTrue bs = 0 →
    ∀ i, bs.getD i false = false := by
  intro bs
  induction bs with
  | nil => intro _ i; rfl
  | cons b bs2 ih =>
    intro h i
    simp only [countTrue] at h
    cases i with
    | zero =>
      cases b
      · rfl
      · simp at h
    | succ i2 =>
      exact ih (by omega) i2

/-- A positive countTrue exhibits a set flag. -/
theorem countTrue_exists_true : ∀ (bs : List Bool), 0 < countTrue bs →
    ∃ i, i < bs.length ∧ bs.getD i false = true := by
  intro bs
  induction bs with
  | nil => intro h; simp [countTrue] at h
  | cons b bs2 ih =>
    intro h
    cases hb : b
    · subst hb
      simp only [countTrue] at h
      simp at h
      obtain ⟨i, hi, hg⟩ := ih (by omega)
      exact ⟨i + 1, by simpa using hi, hg⟩
    · exact ⟨0, by simp, by simp [hb]⟩

/-- countTrue is monotone along canLe for equal-length flag vectors. -/
theorem countTrue_le_of_canLe : ∀ (a b : List Bool), a.length = b.length →
    canLe a b → countTrue a ≤ countTrue b := by
  intro a
  induction a with
  | nil => intro b _ _; simp [countTrue]
  | cons x xs ih =>
    intro b hlen hle
    cases b with
    | nil => simp at hlen
    | cons y ys =>
      have hhead : x = true → y = true := fun hx => hle 0 (by simpa using hx)
      have htail : canLe xs ys := fun i h => hle (i + 1) (by simpa using h)
      have := ih ys (by simpa using hlen) htail
      simp only [countTrue]
      cases x
      · cases y <;> simp <;> omega
      · rw [hhead rfl]
        omega

/-- The early return of the look scan exhibits a true literal with a
non-candidate variable. -/
theorem undefLookScan_none (model : List Lbool) (canUnset : List Bool) :
    ∀ (c : List Lit) (n v : Nat),
      undefLookScan model canUnset c n v = none →
      ∃ l ∈ c, valueLit model l = .ltrue ∧
        canUnset.getD (litVar l) false = false := by
  intro c
  induction c with
  | nil => intro n v h; simp [undefLookScan] at h
  | cons l ls ih =>
    intro n v h
    rw [undefLookScan] at h
    by_cases hv : valueLit model l == .ltrue
    · rw [if_pos hv] at h
      by_cases hc : canUnset.getD (litVar l) false
      · rw [if_pos hc] at h
        obtain ⟨l2, hl2, hp⟩ := ih _ _ h
        exact ⟨l2, List.mem_cons_of_mem l hl2, hp⟩
      · exact ⟨l, List.mem_cons_self l ls, beq_iff_eq.mp hv,
          Bool.eq_false_iff.mpr hc⟩
    · rw [if_neg hv] at h
      obtain ⟨l2, hl2, hp⟩ := ih _ _ h
      exact ⟨l2, List.mem_cons_of_mem l hl2, hp⟩

/-- The look scan never lowers the true-literal counter. -/
theorem undefLookScan_some_ge (model : List Lbool) (canUnset : List Bool) :
    ∀ (c : List Lit) (n v k v2 : Nat),
      undefLookScan model canUnset c n v = some (k, v2) → n ≤ k := by
  intro c
  induction c with
  | nil =>
    intro n v k v2 h
    simp only [undefLookScan, Option.some.injEq, Prod.mk.injEq] at h
    omega
  | cons l ls ih =>
    intro n v k v2 h
    rw [undefLookScan] at h
    by_cases hv : valueLit model l == .ltrue
    · rw [if_pos hv] at h
      by_cases hc : canUnset.getD (litVar l) false
      · rw [if_pos hc] at h
        have := ih _ _ _ _ h
        omega
      · rw [if_neg hc] at h
        cases h
    · rw [if_neg hv] at h
      exact ih _ _ _ _ h

/-- A look scan that does not raise the counter returns the accumulator. -/
theorem undefLookScan_some_eq (model : List Lbool) (canUnset : List Bool) :
    ∀ (c : List Lit) (n v v2 : Nat),
      undefLookScan model canUnset c n v = some (n, v2) → v2 = v := by
  intro c
  induction c with
  | nil =>
    intro n v v2 h
    simp only [undefLookScan, Option.some.injEq, Prod.mk.injEq] at h
    exact h.2.symm
  | cons l ls ih =>
    intro n v v2 h
    rw [undefLookScan] at h
    by_cases hv : valueLit model l == .ltrue
    · rw [if_pos hv] at h
      by_cases hc : canUnset.getD (litVar l) false
      · rw [if_pos hc] at h
        have := undefLookScan_some_ge model canUnset ls (n + 1) _ n _ h
        omega
      · rw [if_neg hc] at h
        cases h
    · rw [if_neg hv] at h
      exact ih _ _ _ h

/-- A look scan that raised the counter returns the variable of a true
candidate literal of the clause. -/
theorem undefLookScan_some_pos (model : List Lbool) (canUnset : List Bool) :
    ∀ (c : List Lit) (n v k v2 : Nat),
      undefLookScan model canUnset c n v = some (k, v2) → n < k →
      ∃ l ∈ c, valueLit model l = .ltrue ∧
        canUnset.getD (litVar l) false = true ∧ litVar l = v2 := by
  intro c
  induction c with
  | nil =>
    intro n v k v2 h hlt
    simp only [undefLookScan, Option.some.injEq, Prod.mk.injEq] at h
    omega
  | cons l ls ih =>
    intro n v k v2 h hlt
    rw [undefLookScan] at h
    by_cases hv : valueLit model l == .ltrue
    · rw [if_pos hv] at h
      by_cases hc : canUnset.getD (litVar l) false
      · rw [if_pos hc] at h
        by_cases hk : n + 1 < k
        · obtain ⟨l2, hl2, hp⟩ := ih _ _ _ _ h hk
          exact ⟨l2, List.mem_cons_of_mem l hl2, hp⟩
        · have hge := undefLookScan_some_ge model canUnset ls (n + 1) _ k _ h
          have hkeq : k = n + 1 := by omega
          subst hkeq
          have := undefLookScan_some_eq model canUnset ls (n + 1) _ _ h
          exact ⟨l, List.mem_cons_self l ls, beq_iff_eq.mp hv, hc, this.symm⟩
      · rw [if_neg hc] at h
        cases h
    · rw [if_neg hv] at h
      obtain ⟨l2, hl2, hp⟩ := ih _ _ _ _ h hlt
      exact ⟨l2, List.mem_cons_of_mem l hl2, hp⟩

/-- The full behaviour of undef_look_at_one_clause used downstream:
candidate monotonicity, frame facts, the counter invariant, safety when the
clause is reported definitely satisfied, and the must_fix raise when not. -/
theorem undefLook_spec (model : List Lbool) (c : List Lit) (st : FindUndef)
    (hv : ∀ l ∈ c, litVar l < st.can_be_unset.length)
    (hinv : st.can_be_unsetSum = countTrue st.can_be_unset) :
    canLe (undef_look_at_one_clause model c st).2.can_be_unset
      st.can_be_unset ∧
    (undef_look_at_one_clause model c st).2.can_be_unset.length =
      st.can_be_unset.length ∧
    (undef_look_at_one_clause model c st).2.dontLookAtClause =
      st.dontLookAtClause ∧
    (st.must_fix = true →
      (undef_look_at_one_clause model c st).2.must_fix = true) ∧
    (undef_look_at_one_clause model c st).2.can_be_unsetSum =
      countTrue (undef_look_at_one_clause model c st).2.can_be_unset ∧
    ((undef_look_at_one_clause model c st).1 = true →
      (undef_look_at_one_clause model c st).2.must_fix = st.must_fix ∧
      clauseSafe model (undef_look_at_one_clause model c st).2.can_be_unset c) ∧
    ((undef_look_at_one_clause model c st).1 = false →
      (undef_look_at_one_clause model c st).2.must_fix = true ∧
      (undef_look_at_one_clause model c st).2.can_be_unset =
        st.can_be_unset) := by
  unfold undef_look_at_one_clause
  rcases hs : undefLookScan model st.can_be_unset c 0 0 with _ | ⟨k, v2⟩
  · refine ⟨canLe_refl _, rfl, rfl, fun h => h, hinv, fun _ => ⟨rfl, ?_⟩,
      fun h => by cases h⟩
    exact undefLookScan_none model st.can_be_unset c 0 0 hs
  · by_cases hk : k = 1
    · subst hk
      dsimp only
      obtain ⟨l, hl, hval, hcan, hvar⟩ :=
        undefLookScan_some_pos model st.can_be_unset c 0 0 1 v2 hs (by omega)
      have hb : v2 < st.can_be_unset.length := hvar ▸ hv l hl
      have hg : st.can_be_unset.getD v2 false = true := hvar ▸ hcan
      refine ⟨canLe_set_false _ _, by simp, rfl, fun h => h, ?_,
        fun _ => ⟨rfl, ?_⟩, fun h => by simp at h⟩
      · show st.can_be_unsetSum - 1 = countTrue (st.can_be_unset.set v2 false)
        have := countTrue_set_false st.can_be_unset v2 hb hg
        omega
      · show clauseSafe model (st.can_be_unset.set v2 false) c
        exact ⟨l, hl, hval, by rw [hvar, getD_set_lt _ _ _ _ hb]⟩
    · dsimp only
      rw [if_neg hk]
      exact ⟨canLe_refl _, rfl, rfl, fun _ => rfl, hinv,
        fun h => by simp at h, fun _ => ⟨rfl, rfl⟩⟩

/-- Entries outside the surviving candidate set are untouched by the
unsetting pass. -/
theorem undefUnsetFrom_getD (canUnset : List Bool) :
    ∀ (xs : List Lbool) (s i : Nat), canUnset.getD (s + i) false = false →
      (undefUnsetFrom canUnset s xs).getD i .lundef = xs.getD i .lundef := by
  intro xs
  induction xs with
  | nil => intro s i _; rfl
  | cons x xs2 ih =>
    intro s i h
    cases i with
    | zero =>
      show (if canUnset.getD s false then Lbool.lundef else x) = x
      rw [show canUnset.getD s false = false from by simpa using h]
      rfl
    | succ i2 =>
      show (undefUnsetFrom canUnset (s + 1) xs2).getD i2 .lundef =
        xs2.getD i2 .lundef
      exact ih (s + 1) i2 (by rw [show s + 1 + i2 = s + (i2 + 1) from by omega]; exact h)

/-- A literal over a variable outside the unset set keeps its value in the
minimised model. -/
theorem valueLit_unset (canUnset : List Bool) (model : List Lbool) (l : Lit)
    (h : canUnset.getD (litVar l) false = false) :
    valueLit (undefUnsetFrom canUnset 0 model) l = valueLit model l := by
  unfold valueLit valueVar
  rw [undefUnsetFrom_getD canUnset model 0 (litVar l) (by simpa using h)]

/-- Setting a flag true preserves every set flag. -/
theorem getD_set_true_mono (bs : List Bool) (i k : Nat)
    (h : bs.getD k false = true) : (bs.set i true).getD k false = true := by
  by_cases hik : i = k
  · subst hik
    by_cases hb : i < bs.length
    · rw [getD_set_lt _ _ _ _ hb]
    · rw [List.set_eq_of_length_le (by omega)]
      exact h
  · rw [getD_set_ne' _ _ _ _ _ hik]
    exact h

/-- A flag set after a true-write was either the written index or already
set. -/
theorem getD_set_true_cases (bs : List Bool) (i k : Nat)
    (h : (bs.set i true).getD k false = true) :
    k = i ∨ bs.getD k false = true := by
  by_cases hik : i = k
  · exact Or.inl hik.symm
  · rw [getD_set_ne' _ _ _ _ _ hik] at h
    exact Or.inr h

/-- The long-clause pass of undef_check_must_fix: candidate monotonicity,
frame and counter facts, the forward and backward characterisation of the
skip flags, and the guarantee that a pass that ends without must_fix has
marked every clause of the suffix. -/
theorem undefLongPass_spec (model : List Lbool) :
    ∀ (cs : List (List Lit)) (i : Nat) (st : FindUndef),
      (∀ c ∈ cs, ∀ l ∈ c, litVar l < st.can_be_unset.length) →
      st.can_be_unsetSum = countTrue st.can_be_unset →
      i + cs.length ≤ st.dontLookAtClause.length →
      canLe (undefLongPass model cs i st).can_be_unset st.can_be_unset ∧
      (undefLongPass model cs i st).can_be_unset.length =
        st.can_be_unset.length ∧
      (undefLongPass model cs i st).dontLookAtClause.length =
        st.dontLookAtClause.length ∧
      (st.must_fix = true → (undefLongPass model cs i st).must_fix = true) ∧
      (undefLongPass model cs i st).can_be_unsetSum =
        countTrue (undefLongPass model cs i st).can_be_unset ∧
      (∀ k, st.dontLookAtClause.getD k false = true →
        (undefLongPass model cs i st).dontLookAtClause.getD k false = true) ∧
      (∀ k, (undefLongPass model cs i st).dontLookAtClause.getD k false = true →
        st.dontLookAtClause.getD k false = true ∨
        ∃ j, j < cs.length ∧ k = i + j ∧
          clauseSafe model (undefLongPass model cs i st).can_be_unset
            (cs.getD j [])) ∧
      (∀ j, j < cs.length → (undefLongPass model cs i st).must_fix = false →
        (undefLongPass model cs i st).dontLookAtClause.getD (i + j) false =
          true) := by
  intro cs
  induction cs with
  | nil =>
    intro i st _ hinv _
    exact ⟨canLe_refl _, rfl, rfl, fun h => h, hinv, fun _ h => h,
      fun _ h => Or.inl h, fun j hj _ => absurd hj (by simp)⟩
  | cons c cs ih =>
    intro i st hv hinv hlen
    simp only [undefLongPass]
    by_cases hskip : st.dontLookAtClause.getD i false = true
    · rw [if_pos hskip]
      obtain ⟨ihc, ihlen, ihdlen, ihmf, ihsum, ihfwd, ihback, ihall⟩ :=
        ih (i + 1) st (fun c2 hc2 => hv c2 (List.mem_cons_of_mem c hc2)) hinv
          (by simp at hlen ⊢; omega)
      refine ⟨ihc, ihlen, ihdlen, ihmf, ihsum, ihfwd, ?_, ?_⟩
      · intro k hk
        rcases ihback k hk with h | ⟨j, hj, hkj, hsafe⟩
        · exact Or.inl h
        · exact Or.inr ⟨j + 1, by simp; omega, by omega, hsafe⟩
      · intro j hj hmf
        cases j with
        | zero =>
          have := ihfwd i hskip
          rw [show i + 0 = i from by omega]
          exact this
        | succ j2 =>
          have := ihall j2 (by simp at hj; omega) hmf
          rw [show i + (j2 + 1) = i + 1 + j2 from by omega]
          exact this
    · rw [if_neg hskip]
      have hl := undefLook_spec model c st (hv c (List.mem_cons_self c cs)) hinv
      rcases hr : undef_look_at_one_clause model c st with ⟨b, st2⟩
      rw [hr] at hl
      dsimp only at hl
      obtain ⟨hl1, hl2, hl3, hl4, hl5, hl6, hl7⟩ := hl
      dsimp only
      cases b with
      | true =>
        rw [if_pos rfl]
        have hsafe2 := (hl6 rfl).2
        have hib : i < st2.dontLookAtClause.length := by
          rw [hl3]; simp at hlen; omega
        obtain ⟨ihc, ihlen, ihdlen, ihmf, ihsum, ihfwd, ihback, ihall⟩ :=
          ih (i + 1)
            { st2 with dontLookAtClause := st2.dontLookAtClause.set i true }
            (fun c2 hc2 l hl0 => by
              show litVar l < st2.can_be_unset.length
              rw [hl2]
              exact hv c2 (List.mem_cons_of_mem c hc2) l hl0)
            hl5
            (by
              show i + 1 + cs.length ≤ (st2.dontLookAtClause.set i true).length
              rw [List.length_set, hl3]
              simp at hlen
              omega)
        refine ⟨canLe_trans ihc hl1, by rw [ihlen]; exact hl2,
          by rw [ihdlen]; show (st2.dontLookAtClause.set i true).length = _;
             rw [List.length_set, hl3],
          fun h => ihmf ((hl6 rfl).1 ▸ hl4 h), ihsum, ?_, ?_, ?_⟩
        · intro k hk
          exact ihfwd k (getD_set_true_mono _ _ _ (hl3 ▸ hk))
        · intro k hk
          rcases ihback k hk with h | ⟨j, hj, hkj, hsafe⟩
          · rcases getD_set_true_cases _ _ _ h with rfl | h2
            · exact Or.inr ⟨0, by simp, by omega,
                clauseSafe_mono ihc hsafe2⟩
            · exact Or.inl (hl3 ▸ h2)
          · exact Or.inr ⟨j + 1, by simp; omega, by omega, hsafe⟩
        · intro j hj hmf
          cases j with
          | zero =>
            have := ihfwd i (getD_set_lt _ _ _ _ hib)
            rw [show i + 0 = i from by omega]
            exact this
          | succ j2 =>
            have := ihall j2 (by simp at hj; omega) hmf
            rw [show i + (j2 + 1) = i + 1 + j2 from by omega]
            exact this
      | false =>
        rw [if_neg (by simp)]
        have h72 := hl7 rfl
        obtain ⟨ihc, ihlen, ihdlen, ihmf, ihsum, ihfwd, ihback, ihall⟩ :=
          ih (i + 1) st2
            (fun c2 hc2 l hl0 => by
              rw [hl2]
              exact hv c2 (List.mem_cons_of_mem c hc2) l hl0)
            hl5
            (by rw [hl3]; simp at hlen; omega)
        refine ⟨canLe_trans ihc hl1, by rw [ihlen]; exact hl2,
          by rw [ihdlen, hl3], fun h => ihmf (hl4 h), ihsum, ?_, ?_, ?_⟩
        · intro k hk
          exact ihfwd k (hl3 ▸ hk)
        · intro k hk
          rcases ihback k hk with h | ⟨j, hj, hkj, hsafe⟩
          · exact Or.inl (hl3 ▸ h)
          · exact Or.inr ⟨j + 1, by simp; omega, by omega, hsafe⟩
        · intro j hj hmf
          have := ihmf h72.1
          simp [this] at hmf

/-- The binary-watch scan for one literal: candidate monotonicity, frame
facts, and safety of every watch pair with l below its partner when the
scan ends without must_fix. -/
theorem undefBinInner_spec (model : List Lbool) (l : Lit) :
    ∀ (ws : List Lit) (st : FindUndef),
      (∀ l2 ∈ ws, litVar l < st.can_be_unset.length ∧
        litVar l2 < st.can_be_unset.length) →
      st.can_be_unsetSum = countTrue st.can_be_unset →
      canLe (undefBinInner model l ws st).can_be_unset st.can_be_unset ∧
      (undefBinInner model l ws st).can_be_unset.length =
        st.can_be_unset.length ∧
      (undefBinInner model l ws st).dontLookAtClause =
        st.dontLookAtClause ∧
      (st.must_fix = true → (undefBinInner model l ws st).must_fix = true) ∧
      (undefBinInner model l ws st).can_be_unsetSum =
        countTrue (undefBinInner model l ws st).can_be_unset ∧
      (∀ l2 ∈ ws, l < l2 → (undefBinInner model l ws st).must_fix = false →
        clauseSafe model (undefBinInner model l ws st).can_be_unset
          [l, l2]) := by
  intro ws
  induction ws with
  | nil =>
    intro st _ hinv
    exact ⟨canLe_refl _, rfl, rfl, fun h => h, hinv,
      fun l2 h => absurd h (List.not_mem_nil l2)⟩
  | cons l2 ws ih =>
    intro st hvar hinv
    simp only [undefBinInner]
    by_cases hlt : l < l2
    · rw [if_pos hlt]
      have hl := undefLook_spec model [l, l2] st
        (fun m hm => by
          rcases List.mem_pair.mp hm with rfl | rfl
          · exact (hvar l2 (List.mem_cons_self l2 ws)).1
          · exact (hvar m (List.mem_cons_self m ws)).2)
        hinv
      rcases hr : undef_look_at_one_clause model [l, l2] st with ⟨b, st2⟩
      rw [hr] at hl
      dsimp only at hl
      obtain ⟨hl1, hl2len, hl3, hl4, hl5, hl6, hl7⟩ := hl
      dsimp only
      obtain ⟨ihc, ihlen, ihdl, ihmf, ihsum, ihsafe⟩ :=
        ih st2
          (fun m hm => by
            rw [hl2len]
            exact hvar m (List.mem_cons_of_mem l2 hm))
          hl5
      refine ⟨canLe_trans ihc hl1, ihlen.trans hl2len, ihdl.trans hl3,
        fun h => ihmf (hl4 h), ihsum, ?_⟩
      intro m hm hltm hmf
      rcases List.mem_cons.mp hm with rfl | hm2
      · cases b with
        | true =>
          exact clauseSafe_mono ihc (hl6 rfl).2
        | false =>
          rw [ihmf (hl7 rfl).1] at hmf
          cases hmf
      · exact ihsafe m hm2 hltm hmf
    · rw [if_neg hlt]
      obtain ⟨ihc, ihlen, ihdl, ihmf, ihsum, ihsafe⟩ :=
        ih st (fun m hm => hvar m (List.mem_cons_of_mem l2 hm)) hinv
      refine ⟨ihc, ihlen, ihdl, ihmf, ihsum, ?_⟩
      intro m hm hltm hmf
      rcases List.mem_cons.mp hm with rfl | hm2
      · exact absurd hltm hlt
      · exact ihsafe m hm2 hltm hmf

/-- The binary pass of undef_check_must_fix: candidate monotonicity, frame
facts, and safety of every examined watch pair when the pass ends without
must_fix (a skipped literal is itself the safety witness for its pairs). -/
theorem undefBinPass_spec (model : List Lbool) (watches : List (List Lit)) :
    ∀ (ls : List Lit) (st : FindUndef),
      (∀ l ∈ ls, ∀ l2 ∈ watches.getD l [],
        litVar l < st.can_be_unset.length ∧
        litVar l2 < st.can_be_unset.length) →
      st.can_be_unsetSum = countTrue st.can_be_unset →
      canLe (undefBinPass model watches ls st).can_be_unset st.can_be_unset ∧
      (undefBinPass model watches ls st).can_be_unset.length =
        st.can_be_unset.length ∧
      (undefBinPass model watches ls st).dontLookAtClause =
        st.dontLookAtClause ∧
      (st.must_fix = true → (undefBinPass model watches ls st).must_fix = true) ∧
      (undefBinPass model watches ls st).can_be_unsetSum =
        countTrue (undefBinPass model watches ls st).can_be_unset ∧
      (∀ l ∈ ls, ∀ l2 ∈ watches.getD l [], l < l2 →
        (undefBinPass model watches ls st).must_fix = false →
        clauseSafe model (undefBinPass model watches ls st).can_be_unset
          [l, l2]) := by
  intro ls
  induction ls with
  | nil =>
    intro st _ hinv
    exact ⟨canLe_refl _, rfl, rfl, fun h => h, hinv,
      fun l h => absurd h (List.not_mem_nil l)⟩
  | cons l ls ih =>
    intro st hvar hinv
    simp only [undefBinPass]
    by_cases hskip : (!(st.can_be_unset.getD (litVar l) false) &&
        (valueLit model l == .ltrue)) = true
    · rw [if_pos hskip]
      obtain ⟨ihc, ihlen, ihdl, ihmf, ihsum, ihsafe⟩ :=
        ih st (fun m hm => hvar m (List.mem_cons_of_mem l hm)) hinv
      refine ⟨ihc, ihlen, ihdl, ihmf, ihsum, ?_⟩
      intro m hm l2 hl2 hlt hmf
      rcases List.mem_cons.mp hm with rfl | hm2
      · have hand := Bool.and_eq_true_iff.mp hskip
        refine clauseSafe_mono ihc ⟨m, by simp, beq_iff_eq.mp hand.2, ?_⟩
        have := hand.1
        cases hg : st.can_be_unset.getD (litVar m) false
        · rfl
        · rw [hg] at this
          cases this
      · exact ihsafe m hm2 l2 hl2 hlt hmf
    · rw [if_neg hskip]
      obtain ⟨hc1, hc2, hc3, hc4, hc5, hc6⟩ :=
        undefBinInner_spec model l (watches.getD l []) st
          (hvar l (List.mem_cons_self l ls)) hinv
      obtain ⟨ihc, ihlen, ihdl, ihmf, ihsum, ihsafe⟩ :=
        ih (undefBinInner model l (watches.getD l []) st)
          (fun m hm l2 hl2 => by
            rw [hc2]
            exact hvar m (List.mem_cons_of_mem l hm) l2 hl2)
          hc5
      refine ⟨canLe_trans ihc hc1, ihlen.trans hc2, ihdl.trans hc3,
        fun h => ihmf (hc4 h), ihsum, ?_⟩
      intro m hm l2 hl2 hlt hmf
      rcases List.mem_cons.mp hm with rfl | hm2
      · have hst1mf : (undefBinInner model m (watches.getD m []) st).must_fix =
            false := by
          cases h2 : (undefBinInner model m (watches.getD m []) st).must_fix
          · rfl
          · rw [ihmf h2] at hmf
            cases hmf
        exact clauseSafe_mono ihc (hc6 l2 hl2 hlt hst1mf)
      · exact ihsafe m hm2 l2 hl2 hlt hmf

/-- undef_check_must_fix: candidate monotonicity, frame and counter facts,
the backward characterisation of the skip flags, and — when it reports no
conflict — that every long clause is marked and every watch pair whose
smaller literal is in range is safe. -/
theorem undefCheck_spec (model : List Lbool) (cls : List (List Lit))
    (watches : List (List Lit)) (nVars : Nat) (st : FindUndef)
    (hvc : ∀ c ∈ cls, ∀ l ∈ c, litVar l < st.can_be_unset.length)
    (hvw : ∀ l l2, l2 ∈ watches.getD l [] →
      litVar l < st.can_be_unset.length ∧ litVar l2 < st.can_be_unset.length)
    (hinv : st.can_be_unsetSum = countTrue st.can_be_unset)
    (hdlen : cls.length ≤ st.dontLookAtClause.length) :
    canLe (undef_check_must_fix model cls watches nVars st).2.can_be_unset
      st.can_be_unset ∧
    (undef_check_must_fix model cls watches nVars st).2.can_be_unset.length =
      st.can_be_unset.length ∧
    (undef_check_must_fix model cls watches nVars
        st).2.dontLookAtClause.length = st.dontLookAtClause.length ∧
    (undef_check_must_fix model cls watches nVars st).2.can_be_unsetSum =
      countTrue
        (undef_check_must_fix model cls watches nVars st).2.can_be_unset ∧
    (∀ k, (undef_check_must_fix model cls watches nVars
        st).2.dontLookAtClause.getD k false = true →
      st.dontLookAtClause.getD k false = true ∨
      ∃ j, j < cls.length ∧ k = j ∧
        clauseSafe model
          (undef_check_must_fix model cls watches nVars st).2.can_be_unset
          (cls.getD j [])) ∧
    ((undef_check_must_fix model cls watches nVars st).1 = false →
      (∀ j, j < cls.length →
        (undef_check_must_fix model cls watches nVars
          st).2.dontLookAtClause.getD j false = true) ∧
      (∀ l l2, l2 ∈ watches.getD l [] → l < l2 → l < 2 * nVars →
        clauseSafe model
          (undef_check_must_fix model cls watches nVars st).2.can_be_unset
          [l, l2])) := by
  simp only [undef_check_must_fix]
  obtain ⟨pl1, pl2, pl3, pl4, pl5, pl6, pl7, pl8⟩ :=
    undefLongPass_spec model cls 0 { st with must_fix := false }
      hvc hinv (by simpa using hdlen)
  obtain ⟨b1, b2, b3, b4, b5, b6⟩ :=
    undefBinPass_spec model watches (List.range (2 * nVars))
      (undefLongPass model cls 0 { st with must_fix := false })
      (fun l _ l2 hl2 => by rw [pl2]; exact hvw l l2 hl2)
      pl5
  refine ⟨canLe_trans b1 pl1, b2.trans pl2, by rw [b3]; exact pl3, b5,
    ?_, ?_⟩
  · intro k hk
    rw [b3] at hk
    rcases pl7 k hk with h | ⟨j, hj, hkj, hsafe⟩
    · exact Or.inl h
    · exact Or.inr ⟨j, hj, by omega, clauseSafe_mono b1 hsafe⟩
  · intro hfix
    have hst1mf : (undefLongPass model cls 0
        { st with must_fix := false }).must_fix = false := by
      cases h2 : (undefLongPass model cls 0
          { st with must_fix := false }).must_fix
      · rfl
      · rw [b4 h2] at hfix
        cases hfix
    constructor
    · intro j hj
      have := pl8 j hj hst1mf
      rw [show (0 : Nat) + j = j from by omega] at this
      rw [b3]
      exact this
    · intro l l2 hl2 hlt hlr
      exact b6 l (List.mem_range.mpr hlr) l2 hl2 hlt hfix

/-- The argmax scan of undefine returns a candidate index whenever the
accumulator already is one or a candidate with count at least the running
maximum remains to be scanned. -/
theorem undefPickGo_true (canUnset : List Bool) (sat : List Nat) :
    ∀ (rest : List Nat) (m v : Nat),
      (canUnset.getD v false = true ∨
        ∃ i ∈ rest, canUnset.getD i false = true ∧ m ≤ sat.getD i 0) →
      canUnset.getD (undefPickGo canUnset sat rest m v).2 false = true := by
  intro rest
  induction rest with
  | nil =>
    intro m v h
    rcases h with h | ⟨i, hi, _⟩
    · exact h
    · exact absurd hi (List.not_mem_nil i)
  | cons i rest ih =>
    intro m v h
    simp only [undefPickGo]
    by_cases hg : (canUnset.getD i false && decide (m ≤ sat.getD i 0)) = true
    · rw [if_pos hg]
      exact ih _ _ (Or.inl (Bool.and_eq_true_iff.mp hg).1)
    · rw [if_neg hg]
      apply ih
      rcases h with h | ⟨i2, hi2, hc, hm⟩
      · exact Or.inl h
      · rcases List.mem_cons.mp hi2 with rfl | hi3
        · exact absurd (by rw [hc, decide_eq_true hm]; rfl) hg
        · exact Or.inr ⟨i2, hi3, hc, hm⟩

/-- The undefine fixpoint loop, run with fuel exceeding the candidate
count, leaves every long clause and every binary watch pair with a true
literal whose variable survives outside the final candidate set. -/
theorem undefLoop_sound (model : List Lbool) (cls : List (List Lit))
    (watches : List (List Lit)) (nVars : Nat)
    (hsat : ∀ c ∈ cls, ∃ l ∈ c, valueLit model l = .ltrue)
    (hsatb : ∀ l l2, l2 ∈ watches.getD l [] →
      valueLit model l = .ltrue ∨ valueLit model l2 = .ltrue)
    (hsym : ∀ l l2, l2 ∈ watches.getD l [] → l ∈ watches.getD l2 [])
    (hne : ∀ l l2, l2 ∈ watches.getD l [] → l ≠ l2)
    (hrange : watches.length ≤ 2 * nVars) :
    ∀ (fuel : Nat) (st : FindUndef),
      countTrue st.can_be_unset < fuel →
      st.can_be_unsetSum = countTrue st.can_be_unset →
      (∀ c ∈ cls, ∀ l ∈ c, litVar l < st.can_be_unset.length) →
      (∀ l l2, l2 ∈ watches.getD l [] →
        litVar l < st.can_be_unset.length ∧
        litVar l2 < st.can_be_unset.length) →
      cls.length ≤ st.dontLookAtClause.length →
      (∀ k, k < cls.length → st.dontLookAtClause.getD k false = true →
        clauseSafe model st.can_be_unset (cls.getD k [])) →
      (∀ c ∈ cls, clauseSafe model
        (undefLoop model cls watches nVars fuel st).can_be_unset c) ∧
      (∀ l l2, l2 ∈ watches.getD l [] → clauseSafe model
        (undefLoop model cls watches nVars fuel st).can_be_unset [l, l2]) := by
  intro fuel
  induction fuel with
  | zero =>
    intro st hf _ _ _ _ _
    exact absurd hf (by omega)
  | succ fuel ih =>
    intro st hf hinv hvc hvw hdlen hdinv
    obtain ⟨c1, c2, c3, c4, c5, c6⟩ :=
      undefCheck_spec model cls watches nVars st hvc hvw hinv hdlen
    simp only [undefLoop]
    rcases hr : undef_check_must_fix model cls watches nVars st with ⟨b, st2⟩
    rw [hr] at c1 c2 c3 c4 c5 c6
    dsimp only at c1 c2 c3 c4 c5 c6 ⊢
    have hd2 : ∀ k, k < cls.length → st2.dontLookAtClause.getD k false = true →
        clauseSafe model st2.can_be_unset (cls.getD k []) := by
      intro k hk hkt
      rcases c5 k hkt with h | ⟨j, hj, rfl, hsafe⟩
      · exact clauseSafe_mono c1 (hdinv k hk h)
      · exact hsafe
    by_cases hcond : (b && decide (0 < st2.can_be_unsetSum)) = true
    · rw [if_pos hcond]
      have hsum2 : 0 < st2.can_be_unsetSum :=
        of_decide_eq_true (Bool.and_eq_true_iff.mp hcond).2
      have hcount2 : 0 < countTrue st2.can_be_unset := c4 ▸ hsum2
      obtain ⟨i0, hi0len, hi0⟩ := countTrue_exists_true _ hcount2
      have hp : st2.can_be_unset.getD
          (undefPickGo st2.can_be_unset st2.satisfies
            (List.range st2.can_be_unset.length) 0
            st2.can_be_unset.length).2 false = true :=
        undefPickGo_true st2.can_be_unset st2.satisfies _ 0 _
          (Or.inr ⟨i0, List.mem_range.mpr hi0len, hi0, Nat.zero_le _⟩)
      have hplen : (undefPickGo st2.can_be_unset st2.satisfies
          (List.range st2.can_be_unset.length) 0
          st2.can_be_unset.length).2 < st2.can_be_unset.length :=
        getD_true_lt_length _ _ hp
      have hcount : countTrue (st2.can_be_unset.set
          (undefPickGo st2.can_be_unset st2.satisfies
            (List.range st2.can_be_unset.length) 0
            st2.can_be_unset.length).2 false) + 1 =
          countTrue st2.can_be_unset :=
        countTrue_set_false _ _ hplen hp
      have hle2 : countTrue st2.can_be_unset ≤ countTrue st.can_be_unset :=
        countTrue_le_of_canLe _ _ c2 c1
      apply ih
      · show countTrue (st2.can_be_unset.set _ false) < fuel
        omega
      · show st2.can_be_unsetSum - 1 = countTrue (st2.can_be_unset.set _ false)
        omega
      · intro c hc l hl
        show litVar l < (st2.can_be_unset.set _ false).length
        rw [List.length_set, c2]
        exact hvc c hc l hl
      · intro l l2 hl2
        show litVar l < (st2.can_be_unset.set _ false).length ∧
          litVar l2 < (st2.can_be_unset.set _ false).length
        rw [List.length_set, c2]
        exact hvw l l2 hl2
      · show cls.length ≤ st2.dontLookAtClause.length
        rw [c3]
        exact hdlen
      · intro k hk hkt
        exact clauseSafe_mono (canLe_set_false _ _) (hd2 k hk hkt)
    · rw [if_neg hcond]
      cases b with
      | false =>
        have h6 := c6 rfl
        constructor
        · intro c hc
          obtain ⟨i, hilen, hieq⟩ := List.getElem_of_mem hc
          have := hd2 i hilen (h6.1 i hilen)
          rw [List.getD_eq_getElem cls [] hilen, hieq] at this
          exact this
        · intro l l2 hl2
          have hlw : l < watches.length := by
            by_contra hcw
            rw [List.getD_eq_default _ _ (by omega)] at hl2
            exact absurd hl2 (List.not_mem_nil l2)
          rcases Nat.lt_trichotomy l l2 with hlt | heq | hgt
          · exact h6.2 l l2 hl2 hlt (by omega)
          · exact absurd heq (hne l l2 hl2)
          · have hl2w : l ∈ watches.getD l2 [] := hsym l l2 hl2
            have hlw2 : l2 < watches.length := by
              rcases Nat.lt_or_ge l2 watches.length with h | h
              · exact h
              · rw [List.getD_eq_default _ _ h] at hl2w
                exact absurd hl2w (List.not_mem_nil l)
            have hb2 : l2 < 2 * nVars := Nat.lt_of_lt_of_le hlw2 hrange
            exact clauseSafe_pair_symm (h6.2 l2 l hl2w hgt hb2)
      | true =>
        have hsum2 : st2.can_be_unsetSum = 0 := by
          simp at hcond
          omega
        have hall := countTrue_eq_zero_all_false st2.can_be_unset
          (by omega)
        constructor
        · intro c hc
          obtain ⟨l, hl, hv⟩ := hsat c hc
          exact ⟨l, hl, hv, hall (litVar l)⟩
        · intro l l2 hl2
          rcases hsatb l l2 hl2 with hv | hv
          · exact ⟨l, by simp, hv, hall (litVar l)⟩
          · exact ⟨l2, by simp, hv, hall (litVar l2)⟩

/-- C2: model-minimizer soundness.  For every model, every candidate set
handed to undefine, every long irredundant clause list and every binary
watch structure (stored symmetrically, without degenerate pairs, with
literal indices in range) in which the model satisfies every clause, after
undefine finishes and unsets the surviving candidate set U, every long
clause and every binary clause still contains a literal that is true under
the minimised model and whose variable is not in U. -/
theorem undefine_model_minimizer_sound (model : List Lbool)
    (cls : List (List Lit)) (watches : List (List Lit)) (nVars : Nat)
    (can0 : List Bool)
    (hsat : ∀ c ∈ cls, ∃ l ∈ c, valueLit model l = .ltrue)
    (hsatb : ∀ l, l < watches.length → ∀ l2 ∈ watches.getD l [],
      valueLit model l = .ltrue ∨ valueLit model l2 = .ltrue)
    (hsym : ∀ l, l < watches.length → ∀ l2 ∈ watches.getD l [],
      l ∈ watches.getD l2 [])
    (hne : ∀ l, l < watches.length → ∀ l2 ∈ watches.getD l [], l ≠ l2)
    (hrange : watches.length ≤ 2 * nVars)
    (hvc : ∀ c ∈ cls, ∀ l ∈ c, litVar l < can0.length)
    (hvw : ∀ l, l < watches.length → ∀ l2 ∈ watches.getD l [],
      litVar l < can0.length ∧ litVar l2 < can0.length) :
    (∀ c ∈ cls, ∃ l ∈ c,
      valueLit (undefine model cls watches nVars can0).1 l = .ltrue ∧
      (undefine model cls watches nVars can0).2.getD (litVar l) false =
        false) ∧
    (∀ l l2, l2 ∈ watches.getD l [] → ∃ m ∈ [l, l2],
      valueLit (undefine model cls watches nVars can0).1 m = .ltrue ∧
      (undefine model cls watches nVars can0).2.getD (litVar m) false =
        false) := by
  have hmem : ∀ (l l2 : Lit), l2 ∈ watches.getD l [] → l < watches.length := by
    intro l l2 h
    rcases Nat.lt_or_ge l watches.length with hlt | hge
    · exact hlt
    · rw [List.getD_eq_default _ _ hge] at h
      exact absurd h (List.not_mem_nil l2)
  have hloop := undefLoop_sound model cls watches nVars hsat
    (fun l l2 h => hsatb l (hmem l l2 h) l2 h)
    (fun l l2 h => hsym l (hmem l l2 h) l2 h)
    (fun l l2 h => hne l (hmem l l2 h) l2 h)
    hrange
    (countTrue can0 + 1) (undefInit cls can0)
    (Nat.lt_succ_self _) rfl hvc
    (fun l l2 h => hvw l (hmem l l2 h) l2 h)
    (by simp [undefInit])
    (fun k hk hkt => by
      have : (List.replicate cls.length false).getD k false = false :=
        getD_replicate_self false cls.length k
      rw [show (undefInit cls can0).dontLookAtClause =
        List.replicate cls.length false from rfl] at hkt
      rw [this] at hkt
      cases hkt)
  constructor
  · intro c hc
    obtain ⟨l, hl, hv, hcan⟩ := hloop.1 c hc
    exact ⟨l, hl, by
      show valueLit (undefUnsetFrom
        (undefLoop model cls watches nVars (countTrue can0 + 1)
          (undefInit cls can0)).can_be_unset 0 model) l = .ltrue
      rw [valueLit_unset _ _ _ hcan]
      exact hv, hcan⟩
  · intro l l2 hl2
    obtain ⟨m, hm, hv, hcan⟩ := hloop.2 l l2 hl2
    exact ⟨m, hm, by
      show valueLit (undefUnsetFrom
        (undefLoop model cls watches nVars (countTrue can0 + 1)
          (undefInit cls can0)).can_be_unset 0 model) m = .ltrue
      rw [valueLit_unset _ _ _ hcan]
      exact hv, hcan⟩

/-- Witness: three variables all true in the model, one long clause
x0 or x1 or x2, one binary clause x0 or x1 stored in both watch lists, and
every variable a candidate: the hypotheses hold by computation and the
minimiser leaves every clause with a surviving true literal. -/
theorem undefine_model_minimizer_sound_witness :
    (∀ c ∈ clsU, ∃ l ∈ c, valueLit modelU l = .ltrue) ∧
    (∀ l, l < watchesU.length → ∀ l2 ∈ watchesU.getD l [],
      valueLit modelU l = .ltrue ∨ valueLit modelU l2 = .ltrue) ∧
    (∀ l, l < watchesU.length → ∀ l2 ∈ watchesU.getD l [],
      l ∈ watchesU.getD l2 []) ∧
    (∀ l, l < watchesU.length → ∀ l2 ∈ watchesU.getD l [], l ≠ l2) ∧
    watchesU.length ≤ 2 * 3 ∧
    (∀ c ∈ clsU, ∀ l ∈ c, litVar l < canU.length) ∧
    (∀ l, l < watchesU.length → ∀ l2 ∈ watchesU.getD l [],
      litVar l < canU.length ∧ litVar l2 < canU.length) ∧
    ((∀ c ∈ clsU, ∃ l ∈ c,
      valueLit (undefine modelU clsU watchesU 3 canU).1 l = .ltrue ∧
      (undefine modelU clsU watchesU 3 canU).2.getD (litVar l) false =
        false) ∧
    (∀ l l2, l2 ∈ watchesU.getD l [] → ∃ m ∈ [l, l2],
      valueLit (undefine modelU clsU watchesU 3 canU).1 m = .ltrue ∧
      (undefine modelU clsU watchesU 3 canU).2.getD (litVar m) false =
        false)) :=
  ⟨by decide, by decide, by decide, by decide, by decide, by decide,
    by decide,
    undefine_model_minimizer_sound modelU clsU watchesU 3 canU (by decide)
      (by decide) (by decide) (by decide) (by decide) (by decide)
      (by decide)⟩

end CMSat
